import Mathlib

set_option maxRecDepth 100000

/-!
Verification of the chunked Game-of-Life engine (`crates/life/src/main.rs`).

The Rust source is shallowly embedded: `Cell`, `Chunk`, `Universe` become
Lean structures, the `HashMap<(i32,i32), Chunk>` becomes an association
list (its list order standing in for the hash map's unspecified iteration
order), the `VecDeque<Action>` becomes a `List Action` (head = front), and
the `while let Some(action) = actions.pop_front()` drain loop becomes a
fuel-indexed function whose termination is proved separately.
-/

namespace Life

/-- `const CHUNK_SIZE: usize = 8`. -/
def CHUNK_SIZE : Nat := 8

/-- `const CHUNK_SIZE_SQR: usize = CHUNK_SIZE * CHUNK_SIZE`. -/
def CHUNK_SIZE_SQR : Nat := CHUNK_SIZE * CHUNK_SIZE

/-- `const CHUNK_SIZE_I32: i32 = CHUNK_SIZE as i32`. -/
def CHUNK_SIZE_I32 : Int := 8

/-- `const OFFSETS: [(i32, i32); 8]` — the 8 neighbour offsets. -/
def OFFSETS : List (Int × Int) :=
  [(-1, -1), (0, -1), (1, -1), (-1, 0), (1, 0), (-1, 1), (0, 1), (1, 1)]

/-- `struct Cell`: the array `is_alive: [bool; 2]` is modelled by the two
fields `alive0` (= `is_alive[0]`, current generation) and `alive1`
(= `is_alive[1]`, next generation), together with the stored position
fields `x`, `y`. -/
structure Cell where
  alive0 : Bool
  alive1 : Bool
  x : Int
  y : Int
deriving DecidableEq, Repr

/-- Placeholder cell used for out-of-range list indexing (unreachable in
the verified executions; Rust would panic there). -/
def dummyCell : Cell := { alive0 := false, alive1 := false, x := 0, y := 0 }

/-- `struct Chunk`. -/
structure Chunk where
  cells : List Cell
  x : Int
  y : Int
deriving DecidableEq, Repr

/-- `Chunk::new`: `std::array::from_fn(|i| Cell { is_alive: [false, false],
x: i % CHUNK_SIZE_I32, y: i / CHUNK_SIZE_I32 })` (with `i : usize` cast to
`i32`, hence nonnegative). -/
def Chunk.new (x y : Int) : Chunk :=
  { cells := (List.range CHUNK_SIZE_SQR).map fun i =>
      { alive0 := false, alive1 := false,
        x := Int.ofNat i % CHUNK_SIZE_I32, y := Int.ofNat i / CHUNK_SIZE_I32 },
    x := x, y := y }

/-- `enum Action` (the queue commands). -/
inductive Action where
  | NewChunkAt (x y : Int)
  | CheckCellAt (x y : Int) (idx : Nat)
  | CheckChunkAt (x y : Int)
  | MoveLeft
  | MoveRight
  | MoveUp
  | MoveDown
  | ChangeMode
deriving DecidableEq, Repr

/-- The `HashMap<(i32, i32), Chunk>` is modelled as an association list. -/
abbrev ChunkMap := List ((Int × Int) × Chunk)

/-- `self.chunks.get(&k)`. -/
def findChunk (M : ChunkMap) (k : Int × Int) : Option Chunk :=
  (M.find? fun e => e.1 = k).map (·.2)

/-- `HashMap::insert`: replaces the value when the key is present,
otherwise adds a new entry. -/
def insertChunk (M : ChunkMap) (k : Int × Int) (c : Chunk) : ChunkMap :=
  if (findChunk M k).isSome then
    M.map fun e => if e.1 = k then (k, c) else e
  else
    M ++ [(k, c)]

/-- Chunk coordinate of a global coordinate, exactly as computed in
`check_neighbours` (lines 137–146): Rust `/` on `i32` truncates toward
zero, which is `Int.div`. -/
def chunkCoordOf (g : Int) : Int :=
  if 0 ≤ g then Int.tdiv g CHUNK_SIZE_I32
  else Int.tdiv (g - (CHUNK_SIZE_I32 - 1)) CHUNK_SIZE_I32

/-- Local offset of a global coordinate inside its chunk
(`neighbour_global_x - neighbour_cx * CHUNK_SIZE_I32`). -/
def localOf (g : Int) : Int := g - chunkCoordOf g * CHUNK_SIZE_I32

/-- `global_position` of the spec (§4.1): chunk coordinate and local
offset back to the global coordinate (`cx * CHUNK_SIZE_I32 + local`,
as in lines 130–131). -/
def global_position (c l : Int) : Int := c * CHUNK_SIZE_I32 + l

/-- `Universe::check_neighbours`. -/
def check_neighbours (M : ChunkMap) (cx cy : Int) (cell : Cell) : Nat :=
  let global_x := cx * CHUNK_SIZE_I32 + cell.x
  let global_y := cy * CHUNK_SIZE_I32 + cell.y
  OFFSETS.foldl
    (fun count d =>
      let ngx := global_x + d.1
      let ngy := global_y + d.2
      let ncx := chunkCoordOf ngx
      let ncy := chunkCoordOf ngy
      let nlx := ngx - ncx * CHUNK_SIZE_I32
      let nly := ngy - ncy * CHUNK_SIZE_I32
      match findChunk M (ncx, ncy) with
      | some nc =>
        if (nc.cells.getD (nly * CHUNK_SIZE_I32 + nlx).toNat dummyCell).alive0
        then count + 1 else count
      | none => count)
    0

/-- `struct Universe` (the render collaborator's viewport state `vx`, `vy`
is kept inline; `draw_frame` is external I/O and has no effect on the
grid). -/
structure Universe where
  chunks : ChunkMap
  actions : List Action
  auto : Bool
  generation : Nat
  vx : Int
  vy : Int
deriving DecidableEq, Repr

/-- Write `b` into `is_alive[1]` of the cell at list position `idx`
(out-of-range indices leave the list unchanged; Rust would panic). -/
def setAlive1 : List Cell → Nat → Bool → List Cell
  | [], _, _ => []
  | c :: cs, 0, b => { c with alive1 := b } :: cs
  | c :: cs, n + 1, b => c :: setAlive1 cs n b

/-- `self.chunks.get_mut(&k).unwrap().cells[idx].is_alive[1] = b`. -/
def writeAlive1 (M : ChunkMap) (k : Int × Int) (idx : Nat) (b : Bool) : ChunkMap :=
  M.map fun e =>
    if e.1 = k then (e.1, { e.2 with cells := setAlive1 e.2.cells idx b }) else e

/-- The chunk-map effect of the `CheckCellAt` arm (lines 270–282): apply
the rule table, writing only `is_alive[1]` of the evaluated cell.  Note
that in the `neighbours == 2` branch a dead cell causes no write at all. -/
def evalCellChunks (M : ChunkMap) (x y : Int) (idx : Nat) : ChunkMap :=
  match findChunk M (x, y) with
  | none => M
  | some chunk =>
    let n := check_neighbours M x y (chunk.cells.getD idx dummyCell)
    if n < 2 ∨ n > 3 then writeAlive1 M (x, y) idx false
    else if n = 3 then writeAlive1 M (x, y) idx true
    else if n = 2 then
      if (chunk.cells.getD idx dummyCell).alive0 then writeAlive1 M (x, y) idx true
      else M
    else M

/-- Successive `push_front`s of the elements of `l` (in list order) onto
the queue `q`, as the `for` loop over `OFFSETS` does: the later elements
end up nearer the front. -/
def pushFrontAll (l : List Action) (q : List Action) : List Action :=
  l.foldl (fun q a => a :: q) q

/-- One arm of the `match action` in `Universe::execute_actions`, applied
to the universe with the action already popped from the queue front. -/
def execAction (a : Action) (s : Universe) : Universe :=
  match a with
  | .NewChunkAt x y =>
    { s with chunks := insertChunk s.chunks (x, y) (Chunk.new x y),
             actions := .CheckChunkAt x y :: s.actions }
  | .CheckChunkAt x y =>
    match findChunk s.chunks (x, y) with
    | some chunk =>
      { s with actions :=
          s.actions ++ (List.range chunk.cells.length).map (.CheckCellAt x y ·) }
    | none => { s with actions := .NewChunkAt x y :: s.actions }
  | .CheckCellAt x y idx =>
    match findChunk s.chunks (x, y) with
    | none => s
    | some chunk =>
      let grown : List Action :=
        if (chunk.cells.getD idx dummyCell).alive0 then
          OFFSETS.filterMap fun d =>
            if findChunk s.chunks (x + d.1, y + d.2) = none
            then some (.NewChunkAt (x + d.1) (y + d.2)) else none
        else []
      { s with actions := pushFrontAll grown s.actions,
               chunks := evalCellChunks s.chunks x y idx }
  | .MoveLeft => { s with vx := s.vx - 1 }
  | .MoveRight => { s with vx := s.vx + 1 }
  | .MoveUp => { s with vy := s.vy - 1 }
  | .MoveDown => { s with vy := s.vy + 1 }
  | .ChangeMode => { s with auto := !s.auto }

/-- One iteration of the `while let Some(action) = actions.pop_front()`
loop (identity on an empty queue). -/
def drainOnce (s : Universe) : Universe :=
  match s.actions with
  | [] => s
  | a :: rest => execAction a { s with actions := rest }

/-- The drain loop, indexed by fuel; `none` means the fuel ran out before
the queue emptied. -/
def drainFuel : Nat → Universe → Option Universe
  | 0, s => if s.actions = [] then some s else none
  | n + 1, s =>
    match s.actions with
    | [] => some s
    | a :: rest => drainFuel n (execAction a { s with actions := rest })

/-- The buffer swap of one cell (lines 297–300):
`is_alive[0] = is_alive[1]; is_alive[1] = false`. -/
def swapCell (c : Cell) : Cell := { c with alive0 := c.alive1, alive1 := false }

/-- The step epilogue (lines 296–301): swap buffers in every cell of every
chunk. -/
def swapAll (M : ChunkMap) : ChunkMap :=
  M.map fun e => (e.1, { e.2 with cells := e.2.cells.map swapCell })

/-- `Universe::execute_actions`: drain the queue, then swap all buffers. -/
def execute_actions (n : Nat) (s : Universe) : Option Universe :=
  (drainFuel n s).map fun s' => { s' with chunks := swapAll s'.chunks }

/-- The `for` loop at the top of `Universe::step`: push `CheckChunkAt`
onto the queue for every chunk currently in the map (in map order,
standing in for `HashMap` iteration order). -/
def enqueueChunkChecks (s : Universe) : Universe :=
  { s with actions := s.actions ++ s.chunks.map fun e => .CheckChunkAt e.1.1 e.1.2 }

/-- `Universe::step`: enqueue the per-chunk checks, run the executor, and
increment the generation. -/
def step (n : Nat) (s : Universe) : Option Universe :=
  (execute_actions n (enqueueChunkChecks s)).map
    fun s' => { s' with generation := s'.generation + 1 }

/-- `is_alive[0]` of the cell at `(k, idx)` (false when the chunk is
absent — the "absent chunk is all dead" convention of the spec). -/
def getAlive0 (M : ChunkMap) (k : Int × Int) (idx : Nat) : Bool :=
  match findChunk M k with
  | some c => (c.cells.getD idx dummyCell).alive0
  | none => false

/-- `is_alive[1]` of the cell at `(k, idx)` (false when absent). -/
def getAlive1 (M : ChunkMap) (k : Int × Int) (idx : Nat) : Bool :=
  match findChunk M k with
  | some c => (c.cells.getD idx dummyCell).alive1
  | none => false

/-- Spec-level view: the living state of the cell at global coordinate
`(gx, gy)`, obtained through floor division (`Int./` and `Int.%` are
Euclidean, which for the positive divisor 8 is floor division); an
absent chunk reads as dead. -/
def aliveAtGlobal (M : ChunkMap) (gx gy : Int) : Bool :=
  getAlive0 M (gx / CHUNK_SIZE_I32, gy / CHUNK_SIZE_I32)
    ((gy % CHUNK_SIZE_I32) * CHUNK_SIZE_I32 + gx % CHUNK_SIZE_I32).toNat

/-- Spec-level live-neighbour count at a global coordinate: the number of
the 8 neighbouring global coordinates whose cell is alive, absent chunks
contributing 0. -/
def liveNeighbourCount (M : ChunkMap) (gx gy : Int) : Nat :=
  (OFFSETS.filter fun d => aliveAtGlobal M (gx + d.1) (gy + d.2)).length

/-- Sets `is_alive[0]` of the cell at list position `idx` (used to build
the seed states, as `main` does with `chunk.cells[i].is_alive[0] = true`). -/
def setAlive0 : List Cell → Nat → List Cell
  | [], _ => []
  | c :: cs, 0 => { c with alive0 := true } :: cs
  | c :: cs, n + 1 => c :: setAlive0 cs n

/-- A fresh chunk with the cells at the given indices made alive. -/
def seedChunk (x y : Int) (idxs : List Nat) : Chunk :=
  idxs.foldl (fun ch i => { ch with cells := setAlive0 ch.cells i }) (Chunk.new x y)

/-! ### Resolver lemmas -/

theorem chunkCoordOf_eq_ediv (g : Int) : chunkCoordOf g = g / CHUNK_SIZE_I32 := by
  unfold chunkCoordOf CHUNK_SIZE_I32
  split
  · rw [Int.tdiv_eq_ediv (by omega) (by omega)]
  · rw [show (g - (8 - 1)) = -(7 - g) by ring, Int.neg_tdiv,
      Int.tdiv_eq_ediv (by omega) (by omega)]
    omega

theorem localOf_eq_emod (g : Int) : localOf g = g % CHUNK_SIZE_I32 := by
  unfold localOf
  rw [chunkCoordOf_eq_ediv]
  unfold CHUNK_SIZE_I32
  omega

/-- C2: for every pair of integer global coordinates, the
neighbour-resolution computation of `check_neighbours` yields the floor
quotient as chunk coordinate, local offsets in `[0, N)`, and
`global_position` composed with it is the identity — including on
negative inputs, where `(-1, -1)` resolves to chunk `(-1, -1)` with local
index `(7, 7)`. -/
theorem C2_resolver_inverse :
    ∀ gx gy : Int,
      chunkCoordOf gx = gx / CHUNK_SIZE_I32 ∧
      chunkCoordOf gy = gy / CHUNK_SIZE_I32 ∧
      localOf gx = gx - (gx / CHUNK_SIZE_I32) * CHUNK_SIZE_I32 ∧
      localOf gy = gy - (gy / CHUNK_SIZE_I32) * CHUNK_SIZE_I32 ∧
      (0 ≤ localOf gx ∧ localOf gx < CHUNK_SIZE_I32) ∧
      (0 ≤ localOf gy ∧ localOf gy < CHUNK_SIZE_I32) ∧
      global_position (chunkCoordOf gx) (localOf gx) = gx ∧
      global_position (chunkCoordOf gy) (localOf gy) = gy ∧
      chunkCoordOf (-1) = -1 ∧ localOf (-1) = 7 := by
  intro gx gy
  have bx := localOf_eq_emod gx
  have by' := localOf_eq_emod gy
  have cx := chunkCoordOf_eq_ediv gx
  have cy := chunkCoordOf_eq_ediv gy
  refine ⟨cx, cy, ?_, ?_, ?_, ?_, ?_, ?_, by decide, by decide⟩ <;>
    (simp only [global_position, localOf, CHUNK_SIZE_I32] at *; omega)

/-! ### The neighbour count equals the spec-level live-neighbour count -/

theorem foldl_count_eq_filter_length (p : α → Bool) :
    ∀ (l : List α) (n : Nat),
      l.foldl (fun c a => if p a then c + 1 else c) n = n + (l.filter p).length := by
  intro l
  induction l with
  | nil => simp
  | cons a l ih =>
    intro n
    by_cases h : p a <;> (simp [List.filter, h, ih]; try omega)

theorem body_eq_aux (o : Option Chunk) (i : Nat) (count : Nat) :
    (match o with
      | some nc => if (nc.cells.getD i dummyCell).alive0 then count + 1 else count
      | none => count) =
    (if (match o with
          | some c => (c.cells.getD i dummyCell).alive0
          | none => false)
      then count + 1 else count) := by
  cases o with
  | none => rfl
  | some nc => rfl

theorem check_neighbours_eq_liveNeighbourCount (M : ChunkMap) (cx cy : Int) (cell : Cell) :
    check_neighbours M cx cy cell =
      liveNeighbourCount M (cx * CHUNK_SIZE_I32 + cell.x) (cy * CHUNK_SIZE_I32 + cell.y) := by
  simp only [check_neighbours, liveNeighbourCount]
  rw [List.foldl_ext
      (g := fun (count : Nat) (d : Int × Int) =>
        if aliveAtGlobal M (cx * CHUNK_SIZE_I32 + cell.x + d.1)
            (cy * CHUNK_SIZE_I32 + cell.y + d.2)
        then count + 1 else count)]
  · rw [foldl_count_eq_filter_length]
    exact Nat.zero_add _
  · intro count d _
    dsimp only
    simp only [show ∀ g : Int, g - chunkCoordOf g * CHUNK_SIZE_I32 = localOf g
        from fun _ => rfl]
    simp only [chunkCoordOf_eq_ediv, localOf_eq_emod, aliveAtGlobal, getAlive0]
    exact body_eq_aux _ _ _

/-! ### Lemmas about the single-cell write -/

theorem setAlive1_length (cs : List Cell) (n : Nat) (b : Bool) :
    (setAlive1 cs n b).length = cs.length := by
  induction cs generalizing n with
  | nil => rfl
  | cons c cs ih => cases n <;> simp [setAlive1, ih]

theorem getD_setAlive1_same (cs : List Cell) (n : Nat) (b : Bool) (d : Cell)
    (h : n < cs.length) :
    (setAlive1 cs n b).getD n d = { cs.getD n d with alive1 := b } := by
  induction cs generalizing n with
  | nil => simp at h
  | cons c cs ih =>
    cases n with
    | zero => rfl
    | succ n => exact ih n (by simpa using h)

theorem getD_setAlive1_ne (cs : List Cell) (n j : Nat) (b : Bool) (d : Cell)
    (h : j ≠ n) :
    (setAlive1 cs n b).getD j d = cs.getD j d := by
  induction cs generalizing n j with
  | nil => rfl
  | cons c cs ih =>
    cases n with
    | zero => cases j with
      | zero => exact absurd rfl h
      | succ j => rfl
    | succ n =>
      cases j with
      | zero => rfl
      | succ j => exact ih n j (by omega)

theorem getD_setAlive1_alive0 (cs : List Cell) (n j : Nat) (b : Bool) (d : Cell) :
    ((setAlive1 cs n b).getD j d).alive0 = (cs.getD j d).alive0 := by
  by_cases h : j = n
  · subst h
    by_cases hlt : j < cs.length
    · rw [getD_setAlive1_same cs j b d hlt]
    · rw [List.getD_eq_default _ _ (by rw [setAlive1_length]; omega),
        List.getD_eq_default _ _ (by omega)]
  · rw [getD_setAlive1_ne cs n j b d h]

theorem findChunk_mapEntry (M : ChunkMap) (k k' : Int × Int) (g : Chunk → Chunk) :
    findChunk (M.map fun e => if e.1 = k then (e.1, g e.2) else e) k' =
      (if k' = k then (findChunk M k').map g else findChunk M k') := by
  induction M with
  | nil => simp [findChunk]
  | cons e M ih =>
    simp only [findChunk, List.map_cons] at ih ⊢
    by_cases he : e.1 = k
    · by_cases he' : k' = k
      · subst he'
        rw [if_pos rfl] at ih ⊢
        rw [if_pos he, List.find?_cons_of_pos _ (by simpa using he),
          List.find?_cons_of_pos _ (by simpa using he)]
        simp
      · rw [if_neg he'] at ih ⊢
        rw [if_pos he, List.find?_cons_of_neg _ (by simpa using fun h => he' (by rw [← h, he])),
          List.find?_cons_of_neg _ (by simp; intro h; exact he' (by rw [← h, he]))]
        exact ih
    · by_cases hek : e.1 = k'
      · have hkk : ¬ k' = k := fun h => he (hek.trans h)
        rw [if_neg hkk] at ih ⊢
        rw [if_neg he, List.find?_cons_of_pos _ (by simpa using hek),
          List.find?_cons_of_pos _ (by simpa using hek)]
      · rw [if_neg he, List.find?_cons_of_neg _ (by simpa using hek),
          List.find?_cons_of_neg _ (by simpa using hek)]
        exact ih

theorem findChunk_writeAlive1 (M : ChunkMap) (k : Int × Int) (i : Nat) (b : Bool)
    (k' : Int × Int) :
    findChunk (writeAlive1 M k i b) k' =
      (if k' = k then (findChunk M k').map
        (fun ch => { ch with cells := setAlive1 ch.cells i b })
      else findChunk M k') := by
  unfold writeAlive1
  exact findChunk_mapEntry M k k' (fun ch => { ch with cells := setAlive1 ch.cells i b })

theorem getAlive0_writeAlive1 (M : ChunkMap) (k : Int × Int) (i : Nat) (b : Bool)
    (k' : Int × Int) (j : Nat) :
    getAlive0 (writeAlive1 M k i b) k' j = getAlive0 M k' j := by
  unfold getAlive0
  rw [findChunk_writeAlive1]
  by_cases hk : k' = k
  · rw [if_pos hk]
    cases findChunk M k' with
    | none => rfl
    | some ch => exact getD_setAlive1_alive0 ch.cells i j b dummyCell
  · rw [if_neg hk]

theorem getAlive1_writeAlive1_same (M : ChunkMap) (k : Int × Int) (i : Nat) (b : Bool)
    (ch : Chunk) (hch : findChunk M k = some ch) (hlen : i < ch.cells.length) :
    getAlive1 (writeAlive1 M k i b) k i = b := by
  unfold getAlive1
  rw [findChunk_writeAlive1, if_pos rfl, hch, Option.map_some']
  show ((setAlive1 ch.cells i b).getD i dummyCell).alive1 = b
  rw [getD_setAlive1_same ch.cells i b dummyCell hlen]

theorem getAlive1_writeAlive1_other (M : ChunkMap) (k : Int × Int) (i : Nat) (b : Bool)
    (k' : Int × Int) (j : Nat) (h : ¬(k' = k ∧ j = i)) :
    getAlive1 (writeAlive1 M k i b) k' j = getAlive1 M k' j := by
  unfold getAlive1
  rw [findChunk_writeAlive1]
  by_cases hk : k' = k
  · rw [if_pos hk]
    cases findChunk M k' with
    | none => rfl
    | some ch =>
      show ((setAlive1 ch.cells i b).getD j dummyCell).alive1 = _
      rw [getD_setAlive1_ne ch.cells i j b dummyCell (fun hj => h ⟨hk, hj⟩)]
  · rw [if_neg hk]

/-- The presence of a chunk (and its key set) is untouched by the write. -/
theorem findChunk_writeAlive1_isSome (M : ChunkMap) (k : Int × Int) (i : Nat) (b : Bool)
    (k' : Int × Int) :
    (findChunk (writeAlive1 M k i b) k').isSome = (findChunk M k').isSome := by
  rw [findChunk_writeAlive1]
  by_cases hk : k' = k
  · rw [if_pos hk]; cases findChunk M k' <;> rfl
  · rw [if_neg hk]

/-- The rule table applied to a neighbour count `n`, the evaluated cell's
current state `cur` and its previous next-state buffer `next` (which the
`neighbours == 2`, dead-cell branch leaves unwritten). -/
def ruleValue (n : Nat) (cur next : Bool) : Bool :=
  if n < 2 ∨ n > 3 then false
  else if n = 3 then true
  else if cur then true
  else next

theorem getAlive0_evalCellChunks (M : ChunkMap) (x y : Int) (idx : Nat)
    (k : Int × Int) (j : Nat) :
    getAlive0 (evalCellChunks M x y idx) k j = getAlive0 M k j := by
  unfold evalCellChunks
  cases findChunk M (x, y) with
  | none => rfl
  | some ch =>
    dsimp only
    split
    · exact getAlive0_writeAlive1 ..
    · split
      · exact getAlive0_writeAlive1 ..
      · split
        · split
          · exact getAlive0_writeAlive1 ..
          · rfl
        · rfl

theorem getAlive1_evalCellChunks_other (M : ChunkMap) (x y : Int) (idx : Nat)
    (k : Int × Int) (j : Nat) (h : ¬(k = (x, y) ∧ j = idx)) :
    getAlive1 (evalCellChunks M x y idx) k j = getAlive1 M k j := by
  unfold evalCellChunks
  cases findChunk M (x, y) with
  | none => rfl
  | some ch =>
    dsimp only
    split
    · exact getAlive1_writeAlive1_other _ _ _ _ _ _ h
    · split
      · exact getAlive1_writeAlive1_other _ _ _ _ _ _ h
      · split
        · split
          · exact getAlive1_writeAlive1_other _ _ _ _ _ _ h
          · rfl
        · rfl

theorem getAlive1_evalCellChunks_same (M : ChunkMap) (x y : Int) (idx : Nat)
    (ch : Chunk) (hch : findChunk M (x, y) = some ch) (hlen : idx < ch.cells.length) :
    getAlive1 (evalCellChunks M x y idx) (x, y) idx =
      ruleValue (check_neighbours M x y (ch.cells.getD idx dummyCell))
        (ch.cells.getD idx dummyCell).alive0
        (ch.cells.getD idx dummyCell).alive1 := by
  unfold evalCellChunks ruleValue
  rw [hch]
  dsimp only
  split
  · rw [getAlive1_writeAlive1_same M (x, y) idx false ch hch hlen]
  · split
    · rw [getAlive1_writeAlive1_same M (x, y) idx true ch hch hlen]
    · split
      · split
        · rw [getAlive1_writeAlive1_same M (x, y) idx true ch hch hlen]
        · unfold getAlive1
          rw [hch]
      · omega

theorem execAction_checkCell_chunks (s : Universe) (x y : Int) (idx : Nat) :
    (execAction (.CheckCellAt x y idx) s).chunks = evalCellChunks s.chunks x y idx := by
  simp only [execAction, evalCellChunks]
  cases h : findChunk s.chunks (x, y) <;> simp only [h]

theorem ruleValue_iff (n : Nat) (cur : Bool) :
    ruleValue n cur false = true ↔ (n = 3 ∨ (n = 2 ∧ cur = true)) := by
  unfold ruleValue
  by_cases h1 : n < 2 ∨ n > 3
  · rw [if_pos h1]
    simp
    omega
  · rw [if_neg h1]
    by_cases h2 : n = 3
    · rw [if_pos h2]
      simp [h2]
    · rw [if_neg h2]
      cases cur
      · simp [h2]
      · simp [h2]
        omega

/-- C1: for every chunk `(x, y)` present in the map and every local index
`idx` (under the step invariant that the evaluated cell's next-state
buffer is still clear), executing the `CheckCellAt` action sets that
cell's next state to alive exactly when its live-neighbour count is 3, or
is 2 with the cell currently alive, and to dead in every other case; and
the count used is the sum of `is_alive[0]` over the 8 neighbouring global
coordinates, absent chunks contributing 0. -/
theorem C1_check_cell_rule (s : Universe) (x y : Int) (idx : Nat) (ch : Chunk)
    (hch : findChunk s.chunks (x, y) = some ch)
    (hlen : idx < ch.cells.length)
    (hnext : (ch.cells.getD idx dummyCell).alive1 = false) :
    check_neighbours s.chunks x y (ch.cells.getD idx dummyCell) =
      liveNeighbourCount s.chunks
        (x * CHUNK_SIZE_I32 + (ch.cells.getD idx dummyCell).x)
        (y * CHUNK_SIZE_I32 + (ch.cells.getD idx dummyCell).y) ∧
    (getAlive1 (execAction (.CheckCellAt x y idx) s).chunks (x, y) idx = true ↔
      (liveNeighbourCount s.chunks
          (x * CHUNK_SIZE_I32 + (ch.cells.getD idx dummyCell).x)
          (y * CHUNK_SIZE_I32 + (ch.cells.getD idx dummyCell).y) = 3 ∨
        (liveNeighbourCount s.chunks
            (x * CHUNK_SIZE_I32 + (ch.cells.getD idx dummyCell).x)
            (y * CHUNK_SIZE_I32 + (ch.cells.getD idx dummyCell).y) = 2 ∧
          (ch.cells.getD idx dummyCell).alive0 = true))) := by
  have hbridge := check_neighbours_eq_liveNeighbourCount s.chunks x y
    (ch.cells.getD idx dummyCell)
  refine ⟨hbridge, ?_⟩
  rw [execAction_checkCell_chunks,
    getAlive1_evalCellChunks_same s.chunks x y idx ch hch hlen, hnext, hbridge]
  exact ruleValue_iff _ _

/-- Seed universe for the C1 witness: one chunk holding three live cells
in an L, so that cell 27 has exactly two live neighbours. -/
def w1 : Universe :=
  { chunks := [((0, 0), seedChunk 0 0 [27, 28, 35])],
    actions := [], auto := false, generation := 0, vx := 0, vy := 0 }

theorem C1_check_cell_rule_witness :
    ((findChunk w1.chunks (0, 0) = some (seedChunk 0 0 [27, 28, 35])) ∧
      27 < (seedChunk 0 0 [27, 28, 35]).cells.length ∧
      ((seedChunk 0 0 [27, 28, 35]).cells.getD 27 dummyCell).alive1 = false) ∧
    (check_neighbours w1.chunks 0 0 ((seedChunk 0 0 [27, 28, 35]).cells.getD 27 dummyCell) =
        liveNeighbourCount w1.chunks
          (0 * CHUNK_SIZE_I32 + ((seedChunk 0 0 [27, 28, 35]).cells.getD 27 dummyCell).x)
          (0 * CHUNK_SIZE_I32 + ((seedChunk 0 0 [27, 28, 35]).cells.getD 27 dummyCell).y) ∧
      (getAlive1 (execAction (.CheckCellAt 0 0 27) w1).chunks (0, 0) 27 = true ↔
        (liveNeighbourCount w1.chunks
            (0 * CHUNK_SIZE_I32 + ((seedChunk 0 0 [27, 28, 35]).cells.getD 27 dummyCell).x)
            (0 * CHUNK_SIZE_I32 + ((seedChunk 0 0 [27, 28, 35]).cells.getD 27 dummyCell).y) = 3 ∨
          (liveNeighbourCount w1.chunks
              (0 * CHUNK_SIZE_I32 + ((seedChunk 0 0 [27, 28, 35]).cells.getD 27 dummyCell).x)
              (0 * CHUNK_SIZE_I32 + ((seedChunk 0 0 [27, 28, 35]).cells.getD 27 dummyCell).y) = 2 ∧
            ((seedChunk 0 0 [27, 28, 35]).cells.getD 27 dummyCell).alive0 = true)))) :=
  ⟨⟨by decide, by decide, by decide⟩,
    C1_check_cell_rule w1 0 0 27 (seedChunk 0 0 [27, 28, 35])
      (by decide) (by decide) (by decide)⟩

/-! ### Frame and order-independence lemmas for cell evaluation (C3) -/

theorem getD_setAlive1_preserve (cs : List Cell) (n j : Nat) (b : Bool) (d : Cell) :
    ((setAlive1 cs n b).getD j d).alive0 = (cs.getD j d).alive0 ∧
    ((setAlive1 cs n b).getD j d).x = (cs.getD j d).x ∧
    ((setAlive1 cs n b).getD j d).y = (cs.getD j d).y := by
  by_cases h : j = n
  · subst h
    by_cases hlt : j < cs.length
    · rw [getD_setAlive1_same cs j b d hlt]
      exact ⟨rfl, rfl, rfl⟩
    · rw [List.getD_eq_default _ _ (by rw [setAlive1_length]; omega),
        List.getD_eq_default _ _ (by omega)]
      exact ⟨rfl, rfl, rfl⟩
  · rw [getD_setAlive1_ne cs n j b d h]
    exact ⟨rfl, rfl, rfl⟩

theorem aliveAtGlobal_writeAlive1 (M : ChunkMap) (k : Int × Int) (i : Nat) (b : Bool)
    (gx gy : Int) :
    aliveAtGlobal (writeAlive1 M k i b) gx gy = aliveAtGlobal M gx gy := by
  unfold aliveAtGlobal
  exact getAlive0_writeAlive1 ..

theorem aliveAtGlobal_evalCellChunks (M : ChunkMap) (x y : Int) (i : Nat) (gx gy : Int) :
    aliveAtGlobal (evalCellChunks M x y i) gx gy = aliveAtGlobal M gx gy := by
  unfold aliveAtGlobal
  exact getAlive0_evalCellChunks ..

theorem liveNeighbourCount_evalCellChunks (M : ChunkMap) (x y : Int) (i : Nat)
    (gx gy : Int) :
    liveNeighbourCount (evalCellChunks M x y i) gx gy = liveNeighbourCount M gx gy := by
  unfold liveNeighbourCount
  rw [List.filter_congr]
  intro d _
  rw [aliveAtGlobal_evalCellChunks]

theorem getAlive1_oob (M : ChunkMap) (k : Int × Int) (j : Nat) (ch : Chunk)
    (hch : findChunk M k = some ch) (h : ch.cells.length ≤ j) :
    getAlive1 M k j = false := by
  unfold getAlive1
  rw [hch]
  show (ch.cells.getD j dummyCell).alive1 = false
  rw [List.getD_eq_default _ _ h]
  rfl

theorem evalCellChunks_absent (M : ChunkMap) (x y : Int) (i : Nat)
    (h : findChunk M (x, y) = none) : evalCellChunks M x y i = M := by
  unfold evalCellChunks
  rw [h]

theorem evalCellChunks_shape (M : ChunkMap) (x y : Int) (i : Nat) :
    evalCellChunks M x y i = M ∨
      ∃ b, evalCellChunks M x y i = writeAlive1 M (x, y) i b := by
  unfold evalCellChunks
  cases findChunk M (x, y) with
  | none => exact Or.inl rfl
  | some ch =>
    dsimp only
    split
    · exact Or.inr ⟨false, rfl⟩
    · split
      · exact Or.inr ⟨true, rfl⟩
      · split
        · split
          · exact Or.inr ⟨true, rfl⟩
          · exact Or.inl rfl
        · exact Or.inl rfl

theorem findChunk_evalCellChunks_none (M : ChunkMap) (x y : Int) (i : Nat)
    (k : Int × Int) (h : findChunk M k = none) :
    findChunk (evalCellChunks M x y i) k = none := by
  rcases evalCellChunks_shape M x y i with hs | ⟨b, hs⟩
  · rw [hs, h]
  · rw [hs, findChunk_writeAlive1]
    by_cases hk : k = (x, y)
    · rw [if_pos hk, h]
      rfl
    · rw [if_neg hk, h]

theorem findChunk_evalCellChunks_some (M : ChunkMap) (x y : Int) (i : Nat)
    (k : Int × Int) (ch : Chunk) (hch : findChunk M k = some ch) :
    ∃ ch', findChunk (evalCellChunks M x y i) k = some ch' ∧
      ch'.cells.length = ch.cells.length ∧
      (∀ j, ((ch'.cells.getD j dummyCell).alive0 = (ch.cells.getD j dummyCell).alive0 ∧
        (ch'.cells.getD j dummyCell).x = (ch.cells.getD j dummyCell).x ∧
        (ch'.cells.getD j dummyCell).y = (ch.cells.getD j dummyCell).y)) ∧
      (∀ j, ¬(k = (x, y) ∧ j = i) →
        (ch'.cells.getD j dummyCell).alive1 = (ch.cells.getD j dummyCell).alive1) := by
  rcases evalCellChunks_shape M x y i with hs | ⟨b, hs⟩
  · exact ⟨ch, by rw [hs, hch], rfl, fun j => ⟨rfl, rfl, rfl⟩, fun j _ => rfl⟩
  · rw [hs, findChunk_writeAlive1]
    by_cases hk : k = (x, y)
    · refine ⟨{ ch with cells := setAlive1 ch.cells i b }, ?_, setAlive1_length .., ?_, ?_⟩
      · rw [if_pos hk, hch]
        rfl
      · intro j
        exact getD_setAlive1_preserve ch.cells i j b dummyCell
      · intro j hj
        exact congrArg Cell.alive1
          (getD_setAlive1_ne ch.cells i j b dummyCell (fun h => hj ⟨hk, h⟩))
    · exact ⟨ch, by rw [if_neg hk, hch], rfl, fun j => ⟨rfl, rfl, rfl⟩, fun j _ => rfl⟩

/-- The value a cell evaluation writes at its own target does not change
when the base map has already undergone a cell evaluation at a different
target: the evaluation reads only `is_alive[0]` fields (which evaluations
never touch) and its own `is_alive[1]`. -/
theorem eval_target_stable (M : ChunkMap) (a : (Int × Int) × Nat) (x y : Int) (i : Nat)
    (hne : ¬((x, y) = a.1 ∧ i = a.2)) :
    getAlive1 (evalCellChunks (evalCellChunks M a.1.1 a.1.2 a.2) x y i) (x, y) i =
      getAlive1 (evalCellChunks M x y i) (x, y) i := by
  cases hch : findChunk M (x, y) with
  | none =>
    have h1 : findChunk (evalCellChunks M a.1.1 a.1.2 a.2) (x, y) = none :=
      findChunk_evalCellChunks_none _ _ _ _ _ hch
    rw [evalCellChunks_absent _ _ _ i h1, evalCellChunks_absent _ _ _ i hch]
    unfold getAlive1
    rw [h1, hch]
  | some ch =>
    obtain ⟨ch', h1, hlen', hpres, halive1⟩ :=
      findChunk_evalCellChunks_some M a.1.1 a.1.2 a.2 (x, y) ch hch
    by_cases hlt : i < ch.cells.length
    · rw [getAlive1_evalCellChunks_same _ x y i ch' h1 (by omega),
        getAlive1_evalCellChunks_same M x y i ch hch hlt]
      obtain ⟨ha0, hx, hy⟩ := hpres i
      have ha1 : (ch'.cells.getD i dummyCell).alive1 =
          (ch.cells.getD i dummyCell).alive1 := halive1 i (by simpa using hne)
      rw [ha0, ha1]
      congr 1
      rw [check_neighbours_eq_liveNeighbourCount, check_neighbours_eq_liveNeighbourCount,
        hx, hy, liveNeighbourCount_evalCellChunks]
    · obtain ⟨ch'', h3, hlen'', -, -⟩ :=
        findChunk_evalCellChunks_some (evalCellChunks M a.1.1 a.1.2 a.2) x y i (x, y) ch' h1
      obtain ⟨ch₂, h5, hlen₂, -, -⟩ :=
        findChunk_evalCellChunks_some M x y i (x, y) ch hch
      rw [getAlive1_oob _ _ _ ch'' h3 (by omega), getAlive1_oob _ _ _ ch₂ h5 (by omega)]

/-- Sequential execution of a list of `CheckCellAt` targets over the
chunk map (the chunk-map effect of processing those queue entries). -/
def applyCells (M : ChunkMap) (l : List ((Int × Int) × Nat)) : ChunkMap :=
  l.foldl (fun M t => evalCellChunks M t.1.1 t.1.2 t.2) M

theorem getAlive0_applyCells (l : List ((Int × Int) × Nat)) :
    ∀ (M : ChunkMap) (k : Int × Int) (j : Nat),
      getAlive0 (applyCells M l) k j = getAlive0 M k j := by
  induction l with
  | nil => intro M k j; rfl
  | cons a l ih =>
    intro M k j
    show getAlive0 (applyCells (evalCellChunks M a.1.1 a.1.2 a.2) l) k j = _
    rw [ih, getAlive0_evalCellChunks]

theorem getAlive1_applyCells (l : List ((Int × Int) × Nat)) (hnd : l.Nodup) :
    ∀ (M : ChunkMap) (k : Int × Int) (j : Nat),
      getAlive1 (applyCells M l) k j =
        (if (k, j) ∈ l then getAlive1 (evalCellChunks M k.1 k.2 j) k j
          else getAlive1 M k j) := by
  induction l with
  | nil => intro M k j; simp [applyCells]
  | cons a l ih =>
    intro M k j
    obtain ⟨ha, hnd'⟩ := List.nodup_cons.mp hnd
    show getAlive1 (applyCells (evalCellChunks M a.1.1 a.1.2 a.2) l) k j = _
    rw [ih hnd']
    by_cases hkj : (k, j) = a
    · have hmem : (k, j) ∈ a :: l := by simp [hkj]
      rw [if_neg (by rw [hkj]; exact ha), if_pos hmem, ← hkj]
    · by_cases hmem : (k, j) ∈ l
      · rw [if_pos hmem, if_pos (by simp [hmem])]
        have hne : ¬((k.1, k.2) = a.1 ∧ j = a.2) := by
          intro ⟨h1, h2⟩
          exact hkj (by cases a with | mk a1 a2 => simp at h1 h2 ⊢; exact ⟨by
            cases k; simpa using h1, h2⟩)
        exact eval_target_stable M a k.1 k.2 j hne
      · rw [if_neg hmem, if_neg (by simp [hmem, hkj])]
        refine getAlive1_evalCellChunks_other M a.1.1 a.1.2 a.2 k j ?_
        intro ⟨h1, h2⟩
        exact hkj (by cases a with | mk a1 a2 => simp at h1 h2 ⊢; exact ⟨h1, h2⟩)

/-- C3: during the drain, cell evaluation never mutates `is_alive[0]` of
any cell and writes `is_alive[1]` only at the evaluated cell, so each
targeted cell's next state is a function of the pre-step snapshot alone
and the outcome is independent of the order in which the `CheckCellAt`
actions are processed. -/
theorem C3_synchronous_update :
    (∀ (s : Universe) (x y : Int) (idx : Nat) (k : Int × Int) (j : Nat),
      getAlive0 (execAction (.CheckCellAt x y idx) s).chunks k j = getAlive0 s.chunks k j) ∧
    (∀ (s : Universe) (x y : Int) (idx : Nat) (k : Int × Int) (j : Nat),
      ¬(k = (x, y) ∧ j = idx) →
      getAlive1 (execAction (.CheckCellAt x y idx) s).chunks k j = getAlive1 s.chunks k j) ∧
    (∀ (M : ChunkMap) (l : List ((Int × Int) × Nat)), l.Nodup →
      ∀ (k : Int × Int) (j : Nat),
        getAlive1 (applyCells M l) k j =
          (if (k, j) ∈ l then getAlive1 (evalCellChunks M k.1 k.2 j) k j
            else getAlive1 M k j)) ∧
    (∀ (M : ChunkMap) (l₁ l₂ : List ((Int × Int) × Nat)), l₁.Nodup → l₁.Perm l₂ →
      ∀ (k : Int × Int) (j : Nat),
        getAlive0 (applyCells M l₁) k j = getAlive0 (applyCells M l₂) k j ∧
        getAlive1 (applyCells M l₁) k j = getAlive1 (applyCells M l₂) k j) := by
  refine ⟨?_, ?_, ?_, ?_⟩
  · intro s x y idx k j
    rw [execAction_checkCell_chunks, getAlive0_evalCellChunks]
  · intro s x y idx k j h
    rw [execAction_checkCell_chunks, getAlive1_evalCellChunks_other _ _ _ _ _ _ h]
  · exact fun M l h => getAlive1_applyCells l h M
  · intro M l₁ l₂ hnd hperm k j
    constructor
    · rw [getAlive0_applyCells, getAlive0_applyCells]
    · rw [getAlive1_applyCells l₁ hnd M, getAlive1_applyCells l₂ (hperm.nodup hnd) M]
      simp only [hperm.mem_iff]

/-- Seed universe for the C3 witness. -/
def w3 : Universe :=
  { chunks := [((0, 0), seedChunk 0 0 [27, 28, 36])],
    actions := [], auto := false, generation := 0, vx := 0, vy := 0 }

theorem C3_synchronous_update_witness :
    (getAlive0 (execAction (.CheckCellAt 0 0 27) w3).chunks (0, 0) 28 =
      getAlive0 w3.chunks (0, 0) 28) ∧
    (getAlive1 (execAction (.CheckCellAt 0 0 27) w3).chunks (0, 0) 28 =
      getAlive1 w3.chunks (0, 0) 28) ∧
    (getAlive1 (applyCells w3.chunks [((0, 0), 27), ((0, 0), 28)]) (0, 0) 27 =
      (if (((0, 0) : Int × Int), (27 : Nat)) ∈
          [(((0, 0) : Int × Int), (27 : Nat)), ((0, 0), 28)] then
        getAlive1 (evalCellChunks w3.chunks 0 0 27) (0, 0) 27
      else getAlive1 w3.chunks (0, 0) 27)) ∧
    (getAlive0 (applyCells w3.chunks [((0, 0), 27), ((0, 0), 28)]) (0, 0) 27 =
        getAlive0 (applyCells w3.chunks [((0, 0), 28), ((0, 0), 27)]) (0, 0) 27 ∧
      getAlive1 (applyCells w3.chunks [((0, 0), 27), ((0, 0), 28)]) (0, 0) 27 =
        getAlive1 (applyCells w3.chunks [((0, 0), 28), ((0, 0), 27)]) (0, 0) 27) :=
  ⟨C3_synchronous_update.1 w3 0 0 27 (0, 0) 28,
    C3_synchronous_update.2.1 w3 0 0 27 (0, 0) 28 (by decide),
    C3_synchronous_update.2.2.1 w3.chunks [((0, 0), 27), ((0, 0), 28)] (by decide) (0, 0) 27,
    C3_synchronous_update.2.2.2 w3.chunks [((0, 0), 27), ((0, 0), 28)]
      [((0, 0), 28), ((0, 0), 27)] (by decide) (.swap _ _ _) (0, 0) 27⟩

/-! ### Chunk insertion (C4) -/

theorem findChunk_isSome_iff (M : ChunkMap) (k : Int × Int) :
    (findChunk M k).isSome ↔ k ∈ M.map Prod.fst := by
  unfold findChunk
  simp [List.find?_isSome]

theorem keys_insertChunk_present (M : ChunkMap) (k : Int × Int) (c : Chunk)
    (h : (findChunk M k).isSome) :
    (insertChunk M k c).map Prod.fst = M.map Prod.fst := by
  unfold insertChunk
  rw [if_pos h, List.map_map]
  refine List.map_congr_left fun e he => ?_
  by_cases hek : e.1 = k
  · simp [hek]
  · simp [hek]

theorem keys_insertChunk_absent (M : ChunkMap) (k : Int × Int) (c : Chunk)
    (h : ¬(findChunk M k).isSome) :
    (insertChunk M k c).map Prod.fst = M.map Prod.fst ++ [k] := by
  unfold insertChunk
  rw [if_neg h, List.map_append]
  rfl

theorem findChunk_insertChunk_same (M : ChunkMap) (k : Int × Int) (c : Chunk) :
    findChunk (insertChunk M k c) k = some c := by
  unfold insertChunk
  by_cases h : (findChunk M k).isSome
  · rw [if_pos h]
    have hf : (fun e : (Int × Int) × Chunk => if e.1 = k then (k, c) else e) =
        (fun e : (Int × Int) × Chunk => if e.1 = k then (e.1, (fun _ => c) e.2) else e) := by
      funext e
      by_cases hek : e.1 = k <;> simp [hek]
    rw [hf, findChunk_mapEntry M k k (fun _ => c), if_pos rfl]
    obtain ⟨ch, hch⟩ := Option.isSome_iff_exists.mp h
    rw [hch]
    rfl
  · rw [if_neg h]
    unfold findChunk at *
    rw [List.find?_append]
    have hn : (M.find? fun e => e.1 = k) = none := by
      cases hx : M.find? fun e => e.1 = k
      · rfl
      · rw [hx] at h; simp at h
    rw [hn]
    simp

theorem findChunk_insertChunk_other (M : ChunkMap) (k k' : Int × Int) (c : Chunk)
    (hk : k' ≠ k) :
    findChunk (insertChunk M k c) k' = findChunk M k' := by
  unfold insertChunk
  by_cases h : (findChunk M k).isSome
  · rw [if_pos h]
    have hf : (fun e : (Int × Int) × Chunk => if e.1 = k then (k, c) else e) =
        (fun e : (Int × Int) × Chunk => if e.1 = k then (e.1, (fun _ => c) e.2) else e) := by
      funext e
      by_cases hek : e.1 = k <;> simp [hek]
    rw [hf, findChunk_mapEntry M k k' (fun _ => c), if_neg hk]
  · rw [if_neg h]
    unfold findChunk
    rw [List.find?_append]
    have hsing : (([((k, c) : (Int × Int) × Chunk)]).find? fun e => e.1 = k') = none := by
      rw [List.find?_cons_of_neg]
      · rfl
      · simpa using fun h' => hk h'.symm
    rw [hsing]
    simp

theorem countP_map_insert (M : ChunkMap) (k : Int × Int) (c : Chunk) :
    ((M.map fun e => if e.1 = k then (k, c) else e).countP fun e => e.1 = k) =
      M.countP (fun e => e.1 = k) := by
  induction M with
  | nil => rfl
  | cons e M ih =>
    by_cases he : e.1 = k
    · simp [List.countP_cons, he, ih]
    · simp [List.countP_cons, he, ih]

theorem countP_key_eq_one (M : ChunkMap) (k : Int × Int)
    (hnd : (M.map Prod.fst).Nodup) (hmem : k ∈ M.map Prod.fst) :
    M.countP (fun e => e.1 = k) = 1 := by
  induction M with
  | nil => simp at hmem
  | cons e M ih =>
    simp only [List.map_cons, List.nodup_cons] at hnd
    obtain ⟨hne, hnd'⟩ := hnd
    by_cases he : e.1 = k
    · have h0 : M.countP (fun e => e.1 = k) = 0 := by
        rw [List.countP_eq_zero]
        intro a ha
        simp only [decide_eq_true_eq]
        intro hak
        exact hne (by rw [← he, ← hak] at *; exact List.mem_map_of_mem Prod.fst ha)
      simp [List.countP_cons, he, h0]
    · have hm : k ∈ M.map Prod.fst := by
        rcases List.mem_cons.mp hmem with h | h
        · exact absurd h.symm he
        · exact h
      simp [List.countP_cons, he, ih hnd' hm]

theorem countP_key_eq_zero (M : ChunkMap) (k : Int × Int)
    (habs : ¬(findChunk M k).isSome) : M.countP (fun e => e.1 = k) = 0 := by
  rw [List.countP_eq_zero]
  intro a ha
  simp only [decide_eq_true_eq]
  intro hak
  exact habs ((findChunk_isSome_iff M k).mpr (hak ▸ List.mem_map_of_mem Prod.fst ha))

/-- C4 counterexample: executing `NewChunkAt` at a coordinate that is
already present replaces the chunk with a fresh all-dead one — the live
cell at index 27 of the existing chunk is wiped, contradicting the
claimed no-op. -/
def w4 : Universe :=
  { chunks := [((0, 0), seedChunk 0 0 [27])],
    actions := [], auto := false, generation := 0, vx := 0, vy := 0 }

theorem C4_create_chunk_counterexample :
    getAlive0 w4.chunks (0, 0) 27 = true ∧
    getAlive0 (execAction (.NewChunkAt 0 0) w4).chunks (0, 0) 27 = false := by
  constructor
  · decide
  · decide

/-- C4 (amended): executing `NewChunkAt` for a coordinate always binds
that coordinate to a fresh all-dead chunk — resetting any existing
chunk's cell state rather than preserving it — while leaving every other
coordinate untouched and keeping exactly one entry for the coordinate
(assuming the map's keys were duplicate-free). -/
theorem C4_create_chunk_amended (s : Universe) (x y : Int) :
    findChunk (execAction (.NewChunkAt x y) s).chunks (x, y) = some (Chunk.new x y) ∧
    (∀ k : Int × Int, k ≠ (x, y) →
      findChunk (execAction (.NewChunkAt x y) s).chunks k = findChunk s.chunks k) ∧
    ((s.chunks.map Prod.fst).Nodup →
      ((execAction (.NewChunkAt x y) s).chunks.countP fun e => e.1 = (x, y)) = 1 ∧
      ((execAction (.NewChunkAt x y) s).chunks.map Prod.fst).Nodup) := by
  have hc : (execAction (.NewChunkAt x y) s).chunks =
      insertChunk s.chunks (x, y) (Chunk.new x y) := rfl
  refine ⟨by rw [hc]; exact findChunk_insertChunk_same .., fun k hk => by
    rw [hc]; exact findChunk_insertChunk_other _ _ _ _ hk, fun hnd => ?_⟩
  rw [hc]
  by_cases h : (findChunk s.chunks (x, y)).isSome
  · constructor
    · show ((insertChunk s.chunks (x, y) (Chunk.new x y)).countP fun e => e.1 = (x, y)) = 1
      unfold insertChunk
      rw [if_pos h, countP_map_insert]
      exact countP_key_eq_one _ _ hnd ((findChunk_isSome_iff ..).mp h)
    · rw [keys_insertChunk_present _ _ _ h]
      exact hnd
  · have hmem : (x, y) ∉ s.chunks.map Prod.fst :=
      fun hm => h ((findChunk_isSome_iff ..).mpr hm)
    constructor
    · show ((insertChunk s.chunks (x, y) (Chunk.new x y)).countP fun e => e.1 = (x, y)) = 1
      unfold insertChunk
      rw [if_neg h, List.countP_append, countP_key_eq_zero _ _ h]
      simp [List.countP_cons]
    · rw [keys_insertChunk_absent _ _ _ h, List.nodup_append]
      exact ⟨hnd, List.nodup_singleton _, by simpa using hmem⟩

theorem C4_create_chunk_amended_witness :
    (findChunk (execAction (.NewChunkAt 0 0) w4).chunks (0, 0) = some (Chunk.new 0 0) ∧
      findChunk (execAction (.NewChunkAt 0 0) w4).chunks (5, 5) = findChunk w4.chunks (5, 5)) ∧
    ((execAction (.NewChunkAt 0 0) w4).chunks.countP fun e => e.1 = ((0 : Int), (0 : Int))) = 1 ∧
    ((execAction (.NewChunkAt 0 0) w4).chunks.map Prod.fst).Nodup :=
  ⟨⟨(C4_create_chunk_amended w4 0 0).1,
      (C4_create_chunk_amended w4 0 0).2.1 (5, 5) (by decide)⟩,
    (C4_create_chunk_amended w4 0 0).2.2 (by decide)⟩

/-! ### Step epilogue (C7) and the empty grid (C9) -/

theorem execAction_generation (a : Action) (s : Universe) :
    (execAction a s).generation = s.generation := by
  cases a <;> simp only [execAction] <;> first | rfl | (split <;> rfl)

theorem drainFuel_generation :
    ∀ (n : Nat) (s s' : Universe), drainFuel n s = some s' →
      s'.generation = s.generation := by
  intro n
  induction n with
  | zero =>
    intro s s' h
    unfold drainFuel at h
    split at h
    · cases h
      rfl
    · cases h
  | succ n ih =>
    intro s s' h
    unfold drainFuel at h
    cases ha : s.actions with
    | nil =>
      rw [ha] at h
      cases h
      rfl
    | cons a rest =>
      rw [ha] at h
      have := ih _ _ h
      rw [this, execAction_generation]

theorem getD_map_swapCell (cs : List Cell) (j : Nat) :
    (cs.map swapCell).getD j dummyCell = swapCell (cs.getD j dummyCell) := by
  induction cs generalizing j with
  | nil => cases j <;> rfl
  | cons c cs ih =>
    cases j with
    | zero => rfl
    | succ j => exact ih j

theorem findChunk_mapAll (M : ChunkMap) (g : Chunk → Chunk) (k : Int × Int) :
    findChunk (M.map fun e => (e.1, g e.2)) k = (findChunk M k).map g := by
  induction M with
  | nil => rfl
  | cons e M ih =>
    unfold findChunk at ih ⊢
    by_cases he : e.1 = k
    · rw [List.map_cons, List.find?_cons_of_pos _ (by simpa using he),
        List.find?_cons_of_pos _ (by simpa using he)]
      rfl
    · rw [List.map_cons, List.find?_cons_of_neg _ (by simpa using he),
        List.find?_cons_of_neg _ (by simpa using he)]
      exact ih

theorem findChunk_swapAll (M : ChunkMap) (k : Int × Int) :
    findChunk (swapAll M) k =
      (findChunk M k).map fun ch => { ch with cells := ch.cells.map swapCell } := by
  unfold swapAll
  exact findChunk_mapAll M (fun ch => { ch with cells := ch.cells.map swapCell }) k

theorem getAlive1_swapAll (M : ChunkMap) (k : Int × Int) (j : Nat) :
    getAlive1 (swapAll M) k j = false := by
  unfold getAlive1
  rw [findChunk_swapAll]
  cases findChunk M k with
  | none => rfl
  | some ch =>
    show ((ch.cells.map swapCell).getD j dummyCell).alive1 = false
    rw [getD_map_swapCell]
    rfl

theorem getAlive0_swapAll (M : ChunkMap) (k : Int × Int) (j : Nat) :
    getAlive0 (swapAll M) k j = getAlive1 M k j := by
  unfold getAlive0 getAlive1
  rw [findChunk_swapAll]
  cases findChunk M k with
  | none => rfl
  | some ch =>
    show ((ch.cells.map swapCell).getD j dummyCell).alive0 = _
    rw [getD_map_swapCell]
    rfl

/-- C7: when `step` returns, every cell's `is_alive[1]` has been reset to
false, the generation counter has grown by exactly one, and every cell's
`is_alive[0]` equals the `is_alive[1]` value computed by this step's
drain (the post-drain, pre-swap state). -/
theorem C7_step_epilogue (s : Universe) (n : Nat) (s' : Universe)
    (h : step n s = some s') :
    (∀ (k : Int × Int) (j : Nat), getAlive1 s'.chunks k j = false) ∧
    s'.generation = s.generation + 1 ∧
    (∃ sd, drainFuel n (enqueueChunkChecks s) = some sd ∧
      s'.chunks = swapAll sd.chunks ∧
      (∀ (k : Int × Int) (j : Nat), getAlive0 s'.chunks k j = getAlive1 sd.chunks k j)) := by
  unfold step execute_actions at h
  rcases hd : drainFuel n (enqueueChunkChecks s) with _ | sd
  · rw [hd] at h
    cases h
  · rw [hd] at h
    replace h : some { sd with chunks := swapAll sd.chunks, generation := sd.generation + 1 } = some s' := h
    cases h
    refine ⟨fun k j => getAlive1_swapAll .., ?_, sd, rfl, rfl,
      fun k j => getAlive0_swapAll ..⟩
    show sd.generation + 1 = s.generation + 1
    have hg := drainFuel_generation n _ sd hd
    rw [hg]
    rfl

def emptyU : Universe :=
  { chunks := [], actions := [], auto := false, generation := 0, vx := 0, vy := 0 }

theorem C7_step_epilogue_witness :
    (step 0 emptyU = some { emptyU with generation := 1 }) ∧
    (∀ (k : Int × Int) (j : Nat),
      getAlive1 ({ emptyU with generation := 1 } : Universe).chunks k j = false) ∧
    ({ emptyU with generation := 1 } : Universe).generation = emptyU.generation + 1 ∧
    (∃ sd, drainFuel 0 (enqueueChunkChecks emptyU) = some sd ∧
      ({ emptyU with generation := 1 } : Universe).chunks = swapAll sd.chunks ∧
      (∀ (k : Int × Int) (j : Nat),
        getAlive0 ({ emptyU with generation := 1 } : Universe).chunks k j =
          getAlive1 sd.chunks k j)) :=
  ⟨by decide, C7_step_epilogue emptyU 0 { emptyU with generation := 1 } (by decide)⟩

/-- C9: `step()` on a grid with an empty chunk map (and an empty pending
queue) needs no drain iterations at all — fuel 0 suffices, so zero chunk
or cell evaluations run and no chunk is created — and the result changes
nothing but the generation counter, which grows by exactly 1. -/
theorem C9_empty_grid_noop (s : Universe) (hc : s.chunks = []) (ha : s.actions = []) :
    step 0 s = some { s with generation := s.generation + 1 } := by
  unfold step execute_actions drainFuel enqueueChunkChecks
  rw [hc, ha]
  simp [swapAll]

theorem C9_empty_grid_noop_witness :
    emptyU.chunks = [] ∧ emptyU.actions = [] ∧
    step 0 emptyU = some { emptyU with generation := emptyU.generation + 1 } :=
  ⟨rfl, rfl, C9_empty_grid_noop emptyU rfl rfl⟩

/-! ### The slot-index / position-field invariant (C10) -/

/-- Well-formed chunk: 64 cells, and the cell stored at slot `i` carries
position fields `x = i % 8`, `y = i / 8`, exactly as `Chunk::new` sets
them. -/
def wfChunk (ch : Chunk) : Prop :=
  ch.cells.length = CHUNK_SIZE_SQR ∧
  ∀ i, i < CHUNK_SIZE_SQR →
    (ch.cells.getD i dummyCell).x = (i : Int) % CHUNK_SIZE_I32 ∧
    (ch.cells.getD i dummyCell).y = (i : Int) / CHUNK_SIZE_I32

/-- Every chunk in the map is well-formed. -/
def wfMap (M : ChunkMap) : Prop := ∀ e ∈ M, wfChunk e.2

instance : DecidablePred wfChunk := fun ch => by
  unfold wfChunk
  infer_instance

instance : DecidablePred wfMap := fun M => by
  unfold wfMap
  infer_instance

theorem getD_range_map (f : Nat → Cell) (n i : Nat) (h : i < n) (d : Cell) :
    ((List.range n).map f).getD i d = f i := by
  rw [List.getD_eq_getElem?_getD, List.getElem?_map, List.getElem?_range h]
  rfl

theorem wfChunk_new (x y : Int) : wfChunk (Chunk.new x y) := by
  unfold wfChunk Chunk.new
  constructor
  · rw [List.length_map, List.length_range]
  · intro i hi
    rw [getD_range_map _ _ _ hi]
    exact ⟨rfl, rfl⟩

theorem wfChunk_setAlive1 (ch : Chunk) (i : Nat) (b : Bool) (h : wfChunk ch) :
    wfChunk { ch with cells := setAlive1 ch.cells i b } := by
  obtain ⟨hlen, hpos⟩ := h
  constructor
  · show (setAlive1 ch.cells i b).length = _
    rw [setAlive1_length]
    exact hlen
  · intro j hj
    obtain ⟨-, hx, hy⟩ := getD_setAlive1_preserve ch.cells i j b dummyCell
    show ((setAlive1 ch.cells i b).getD j dummyCell).x = _ ∧
      ((setAlive1 ch.cells i b).getD j dummyCell).y = _
    rw [hx, hy]
    exact hpos j hj

theorem wfMap_writeAlive1 (M : ChunkMap) (k : Int × Int) (i : Nat) (b : Bool)
    (h : wfMap M) : wfMap (writeAlive1 M k i b) := by
  intro e' he'
  obtain ⟨e, he, rfl⟩ := List.mem_map.mp he'
  by_cases hk : e.1 = k
  · rw [if_pos hk]
    exact wfChunk_setAlive1 e.2 i b (h e he)
  · rw [if_neg hk]
    exact h e he

theorem wfMap_evalCellChunks (M : ChunkMap) (x y : Int) (i : Nat)
    (h : wfMap M) : wfMap (evalCellChunks M x y i) := by
  rcases evalCellChunks_shape M x y i with hs | ⟨b, hs⟩
  · rw [hs]; exact h
  · rw [hs]; exact wfMap_writeAlive1 M (x, y) i b h

theorem wfMap_insertChunk (M : ChunkMap) (x y : Int)
    (h : wfMap M) : wfMap (insertChunk M (x, y) (Chunk.new x y)) := by
  unfold insertChunk
  split
  · intro e' he'
    obtain ⟨e, he, rfl⟩ := List.mem_map.mp he'
    by_cases hk : e.1 = (x, y)
    · rw [if_pos hk]
      exact wfChunk_new x y
    · rw [if_neg hk]
      exact h e he
  · intro e' he'
    rcases List.mem_append.mp he' with hm | hm
    · exact h e' hm
    · rw [List.mem_singleton.mp hm]
      exact wfChunk_new x y

theorem wfMap_swapAll (M : ChunkMap) (h : wfMap M) : wfMap (swapAll M) := by
  intro e' he'
  obtain ⟨e, he, rfl⟩ := List.mem_map.mp he'
  obtain ⟨hlen, hpos⟩ := h e he
  constructor
  · show (e.2.cells.map swapCell).length = _
    rw [List.length_map]
    exact hlen
  · intro j hj
    show ((e.2.cells.map swapCell).getD j dummyCell).x = _ ∧
      ((e.2.cells.map swapCell).getD j dummyCell).y = _
    rw [getD_map_swapCell]
    exact hpos j hj

theorem wfMap_execAction (a : Action) (s : Universe) (h : wfMap s.chunks) :
    wfMap (execAction a s).chunks := by
  cases a with
  | NewChunkAt x y => exact wfMap_insertChunk s.chunks x y h
  | CheckChunkAt x y =>
    simp only [execAction]
    split <;> exact h
  | CheckCellAt x y idx =>
    rw [execAction_checkCell_chunks]
    exact wfMap_evalCellChunks s.chunks x y idx h
  | MoveLeft => exact h
  | MoveRight => exact h
  | MoveUp => exact h
  | MoveDown => exact h
  | ChangeMode => exact h

theorem wfMap_drainFuel :
    ∀ (n : Nat) (s s' : Universe), wfMap s.chunks → drainFuel n s = some s' →
      wfMap s'.chunks := by
  intro n
  induction n with
  | zero =>
    intro s s' h hd
    unfold drainFuel at hd
    split at hd
    · cases hd; exact h
    · cases hd
  | succ n ih =>
    intro s s' h hd
    unfold drainFuel at hd
    cases ha : s.actions with
    | nil =>
      rw [ha] at hd
      cases hd
      exact h
    | cons a rest =>
      rw [ha] at hd
      exact ih _ _ (wfMap_execAction a { s with actions := rest } h) hd

theorem wfMap_step (n : Nat) (s s' : Universe) (h : wfMap s.chunks)
    (hs : step n s = some s') : wfMap s'.chunks := by
  unfold step execute_actions at hs
  rcases hd : drainFuel n (enqueueChunkChecks s) with _ | sd
  · rw [hd] at hs
    cases hs
  · rw [hd] at hs
    replace hs : some { sd with chunks := swapAll sd.chunks, generation := sd.generation + 1 } = some s' := hs
    cases hs
    exact wfMap_swapAll sd.chunks (wfMap_drainFuel n (enqueueChunkChecks s) sd h hd)

/-- C10: the slot-index / position-field correspondence (`x = i % 8`,
`y = i / 8` for the cell at slot `i`) holds for freshly created chunks
and is preserved by every action, the whole drain, and `step`; and for a
well-formed chunk the neighbour count is determined by the slot index —
the stored fields feed the global-coordinate computation. -/
theorem C10_slot_position_invariant :
    (∀ x y : Int, wfChunk (Chunk.new x y)) ∧
    (∀ (a : Action) (s : Universe), wfMap s.chunks → wfMap (execAction a s).chunks) ∧
    (∀ (n : Nat) (s s' : Universe), wfMap s.chunks → drainFuel n s = some s' →
      wfMap s'.chunks) ∧
    (∀ (n : Nat) (s s' : Universe), wfMap s.chunks → step n s = some s' →
      wfMap s'.chunks) ∧
    (∀ (M : ChunkMap) (cx cy : Int) (ch : Chunk) (i : Nat), wfChunk ch →
      i < CHUNK_SIZE_SQR →
      check_neighbours M cx cy (ch.cells.getD i dummyCell) =
        liveNeighbourCount M (cx * CHUNK_SIZE_I32 + (i : Int) % CHUNK_SIZE_I32)
          (cy * CHUNK_SIZE_I32 + (i : Int) / CHUNK_SIZE_I32)) := by
  refine ⟨wfChunk_new, wfMap_execAction, wfMap_drainFuel, wfMap_step, ?_⟩
  intro M cx cy ch i hwf hi
  obtain ⟨hx, hy⟩ := hwf.2 i hi
  rw [check_neighbours_eq_liveNeighbourCount, hx, hy]

theorem C10_slot_position_invariant_witness :
    wfChunk (Chunk.new 0 0) ∧
    (wfMap w1.chunks ∧ wfMap (execAction (.CheckCellAt 0 0 27) w1).chunks) ∧
    (wfMap (emptyU.chunks) ∧
      (∃ s', step 0 emptyU = some s' ∧ wfMap s'.chunks)) ∧
    check_neighbours w1.chunks 0 0 ((seedChunk 0 0 [27, 28, 35]).cells.getD 27 dummyCell) =
      liveNeighbourCount w1.chunks (0 * CHUNK_SIZE_I32 + (27 : Int) % CHUNK_SIZE_I32)
        (0 * CHUNK_SIZE_I32 + (27 : Int) / CHUNK_SIZE_I32) :=
  ⟨C10_slot_position_invariant.1 0 0,
    ⟨by decide, C10_slot_position_invariant.2.1 (.CheckCellAt 0 0 27) w1 (by decide)⟩,
    ⟨by decide, ⟨{ emptyU with generation := 1 },
      C9_empty_grid_noop emptyU rfl rfl,
      C10_slot_position_invariant.2.2.2.1 0 emptyU { emptyU with generation := 1 }
        (by decide) (C9_empty_grid_noop emptyU rfl rfl)⟩⟩,
    C10_slot_position_invariant.2.2.2.2 w1.chunks 0 0 (seedChunk 0 0 [27, 28, 35]) 27
      (by decide) (by decide)⟩

/-! ### Grid growth (C5) -/

/-- The hypothesis of the growth-containment claim, on the cell level: no
live cell has any of its 8 neighbouring cells lying in a chunk absent
from the map. -/
def noLiveCellTouchingAbsent (M : ChunkMap) : Prop :=
  ∀ e ∈ M, ∀ i, i < e.2.cells.length →
    (e.2.cells.getD i dummyCell).alive0 = true →
    ∀ d ∈ OFFSETS,
      (findChunk M
        (chunkCoordOf (e.1.1 * CHUNK_SIZE_I32 + (e.2.cells.getD i dummyCell).x + d.1),
          chunkCoordOf (e.1.2 * CHUNK_SIZE_I32 + (e.2.cells.getD i dummyCell).y + d.2))).isSome

instance : DecidablePred noLiveCellTouchingAbsent := fun M => by
  unfold noLiveCellTouchingAbsent
  infer_instance

/-- Chunk-granularity growth hypothesis: every chunk that contains any
live cell has all 8 neighbouring chunk coordinates present in the map
(this is what the code's `CheckCellAt` arm actually tests). -/
def liveChunkNbrsPresent (M : ChunkMap) : Prop :=
  ∀ e ∈ M, ∀ i, i < e.2.cells.length →
    (e.2.cells.getD i dummyCell).alive0 = true →
    ∀ d ∈ OFFSETS, (findChunk M (e.1.1 + d.1, e.1.2 + d.2)).isSome

instance : DecidablePred liveChunkNbrsPresent := fun M => by
  unfold liveChunkNbrsPresent
  infer_instance

/-- Seed for the C5 counterexample: one chunk whose only live cell sits
at local position `(3, 3)` — strictly interior, so all 8 of its
neighbouring cells lie inside the same (present) chunk. -/
def w5 : Universe :=
  { chunks := [((0, 0), seedChunk 0 0 [27])],
    actions := [], auto := false, generation := 0, vx := 0, vy := 0 }

set_option maxHeartbeats 4000000 in
theorem C5_growth_containment_counterexample :
    noLiveCellTouchingAbsent w5.chunks ∧
    w5.chunks.length = 1 ∧
    (step 1000 w5).map (fun t => t.chunks.length) = some 9 :=
  ⟨by decide, by decide, by decide⟩

theorem getAlive0_true_elim (M : ChunkMap) (k : Int × Int) (i : Nat)
    (h : getAlive0 M k i = true) :
    ∃ e ∈ M, e.1 = k ∧ i < e.2.cells.length ∧
      (e.2.cells.getD i dummyCell).alive0 = true := by
  unfold getAlive0 findChunk at h
  rcases hf : M.find? fun e => e.1 = k with _ | e
  · rw [hf] at h
    cases h
  · rw [hf] at h
    replace h : (e.2.cells.getD i dummyCell).alive0 = true := h
    have hkey : e.1 = k := by simpa using List.find?_some hf
    have hmem := List.mem_of_find?_eq_some hf
    refine ⟨e, hmem, hkey, ?_, h⟩
    by_contra hle
    rw [List.getD_eq_default _ _ (by omega)] at h
    cases h

/-- The `getAlive0`-level consequence of `liveChunkNbrsPresent`. -/
theorem liveChunkNbrsPresent_alive0 (M : ChunkMap) (hH : liveChunkNbrsPresent M)
    (k : Int × Int) (i : Nat) (h : getAlive0 M k i = true) :
    ∀ d ∈ OFFSETS, (findChunk M (k.1 + d.1, k.2 + d.2)).isSome := by
  obtain ⟨e, hmem, hkey, hlt, halive⟩ := getAlive0_true_elim M k i h
  intro d hd
  have := hH e hmem i hlt halive d hd
  rw [hkey] at this
  exact this

theorem keys_writeAlive1 (M : ChunkMap) (k : Int × Int) (i : Nat) (b : Bool) :
    (writeAlive1 M k i b).map Prod.fst = M.map Prod.fst := by
  unfold writeAlive1
  rw [List.map_map]
  refine List.map_congr_left fun e he => ?_
  by_cases hek : e.1 = k
  · simp [hek]
  · simp [hek]

theorem keys_evalCellChunks (M : ChunkMap) (x y : Int) (i : Nat) :
    (evalCellChunks M x y i).map Prod.fst = M.map Prod.fst := by
  rcases evalCellChunks_shape M x y i with hs | ⟨b, hs⟩
  · rw [hs]
  · rw [hs, keys_writeAlive1]

theorem keys_swapAll (M : ChunkMap) :
    (swapAll M).map Prod.fst = M.map Prod.fst := by
  unfold swapAll
  rw [List.map_map]
  rfl

/-- Which queued actions the containment invariant allows: chunk or cell
checks against coordinates already present at step start. -/
def keysOKAction (M0 : ChunkMap) : Action → Prop
  | .CheckChunkAt x y => (findChunk M0 (x, y)).isSome = true
  | .CheckCellAt x y _ => (findChunk M0 (x, y)).isSome = true
  | _ => False

/-- Drain invariant for growth containment. -/
def containInv (M0 : ChunkMap) (s : Universe) : Prop :=
  s.chunks.map Prod.fst = M0.map Prod.fst ∧
  (∀ (k : Int × Int) (i : Nat), getAlive0 s.chunks k i = getAlive0 M0 k i) ∧
  (∀ a ∈ s.actions, keysOKAction M0 a)

theorem isSome_of_keys_eq (M1 M2 : ChunkMap)
    (h : M1.map Prod.fst = M2.map Prod.fst) (k : Int × Int) :
    (findChunk M1 k).isSome = (findChunk M2 k).isSome := by
  cases hb : (findChunk M2 k).isSome
  · cases ha : (findChunk M1 k).isSome
    · rfl
    · have hmem := (findChunk_isSome_iff M1 k).mp ha
      rw [h] at hmem
      have := (findChunk_isSome_iff M2 k).mpr hmem
      rw [hb] at this
      cases this
  · have hmem := (findChunk_isSome_iff M2 k).mp hb
    rw [← h] at hmem
    exact (findChunk_isSome_iff M1 k).mpr hmem

theorem execAction_checkChunk_chunks (s : Universe) (x y : Int) :
    (execAction (.CheckChunkAt x y) s).chunks = s.chunks := by
  simp only [execAction]
  split <;> rfl

theorem execAction_checkChunk_actions (s : Universe) (x y : Int) (ch : Chunk)
    (hch : findChunk s.chunks (x, y) = some ch) :
    (execAction (.CheckChunkAt x y) s).actions =
      s.actions ++ (List.range ch.cells.length).map (.CheckCellAt x y ·) := by
  simp only [execAction, hch]

theorem execAction_checkCell_actions (s : Universe) (x y : Int) (idx : Nat) (ch : Chunk)
    (hch : findChunk s.chunks (x, y) = some ch) :
    (execAction (.CheckCellAt x y idx) s).actions =
      pushFrontAll (if (ch.cells.getD idx dummyCell).alive0 then OFFSETS.filterMap fun d => if findChunk s.chunks (x + d.1, y + d.2) = none then some (.NewChunkAt (x + d.1) (y + d.2)) else none else []) s.actions := by
  simp only [execAction, hch]

theorem containInv_drain (M0 : ChunkMap)
    (hH : ∀ (k : Int × Int) (i : Nat), getAlive0 M0 k i = true →
      ∀ d ∈ OFFSETS, (findChunk M0 (k.1 + d.1, k.2 + d.2)).isSome) :
    ∀ (n : Nat) (s s' : Universe), containInv M0 s → drainFuel n s = some s' →
      containInv M0 s' := by
  intro n
  induction n with
  | zero =>
    intro s s' hinv hd
    unfold drainFuel at hd
    split at hd
    · cases hd
      exact hinv
    · cases hd
  | succ n ih =>
    intro s s' hinv hd
    obtain ⟨hkeys, halive, hq⟩ := hinv
    unfold drainFuel at hd
    cases ha : s.actions with
    | nil =>
      rw [ha] at hd
      cases hd
      exact ⟨hkeys, halive, hq⟩
    | cons a rest =>
      rw [ha] at hd
      refine ih _ _ ?_ hd
      have hok : keysOKAction M0 a := hq a (by rw [ha]; exact List.mem_cons_self a rest)
      have hrest : ∀ b ∈ rest, keysOKAction M0 b :=
        fun b hb => hq b (by rw [ha]; exact List.mem_cons_of_mem a hb)
      cases a with
      | CheckChunkAt x y =>
        have hsome : (findChunk s.chunks (x, y)).isSome = true := by
          rw [isSome_of_keys_eq s.chunks M0 hkeys]
          exact hok
        obtain ⟨ch, hch⟩ := Option.isSome_iff_exists.mp hsome
        refine ⟨?_, ?_, ?_⟩
        · rw [execAction_checkChunk_chunks]
          exact hkeys
        · intro k i
          rw [execAction_checkChunk_chunks]
          exact halive k i
        · intro b hb
          rw [execAction_checkChunk_actions { s with actions := rest } x y ch hch] at hb
          rcases List.mem_append.mp hb with hb | hb
          · exact hrest b hb
          · obtain ⟨i, -, rfl⟩ := List.mem_map.mp hb
            exact hok
      | CheckCellAt x y idx =>
        have hsome : (findChunk s.chunks (x, y)).isSome = true := by
          rw [isSome_of_keys_eq s.chunks M0 hkeys]
          exact hok
        obtain ⟨ch, hch⟩ := Option.isSome_iff_exists.mp hsome
        have hgrown : (if (ch.cells.getD idx dummyCell).alive0 = true then
            OFFSETS.filterMap fun d =>
              if findChunk s.chunks (x + d.1, y + d.2) = none
              then some (Action.NewChunkAt (x + d.1) (y + d.2)) else none
          else []) = [] := by
          by_cases hc : (ch.cells.getD idx dummyCell).alive0 = true
          · rw [if_pos hc, List.filterMap_eq_nil_iff]
            intro d hd
            have halive0 : getAlive0 s.chunks (x, y) idx = true := by
              unfold getAlive0
              rw [hch]
              exact hc
            rw [halive (x, y) idx] at halive0
            have hpres := hH (x, y) idx halive0 d hd
            rw [← isSome_of_keys_eq s.chunks M0 hkeys] at hpres
            rw [if_neg (Option.isSome_iff_ne_none.mp hpres)]
          · rw [if_neg hc]
        refine ⟨?_, ?_, ?_⟩
        · rw [execAction_checkCell_chunks, keys_evalCellChunks]
          exact hkeys
        · intro k i
          rw [execAction_checkCell_chunks, getAlive0_evalCellChunks]
          exact halive k i
        · intro b hb
          rw [execAction_checkCell_actions { s with actions := rest } x y idx ch hch,
            hgrown] at hb
          exact hrest b hb
      | NewChunkAt x y => exact hok.elim
      | MoveLeft => exact hok.elim
      | MoveRight => exact hok.elim
      | MoveUp => exact hok.elim
      | MoveDown => exact hok.elim
      | ChangeMode => exact hok.elim

/-- C5 (amended): growth is chunk-granular — whenever every chunk that
contains a live cell has all 8 neighbouring chunk coordinates already in
the map (and the pending queue is empty), one `step()` adds no chunk: the
key list is unchanged.  (The cell-granularity version of the claim is
refuted by `C5_growth_containment_counterexample`: any live cell, even one
whose own 8 neighbours all lie inside its chunk, spawns all 8 neighbouring
chunks of that chunk.) -/
theorem C5_growth_amended (s : Universe) (n : Nat) (s' : Universe)
    (ha : s.actions = []) (hH : liveChunkNbrsPresent s.chunks)
    (hs : step n s = some s') :
    s'.chunks.map Prod.fst = s.chunks.map Prod.fst := by
  unfold step execute_actions at hs
  rcases hd : drainFuel n (enqueueChunkChecks s) with _ | sd
  · rw [hd] at hs
    cases hs
  · rw [hd] at hs
    replace hs : some { sd with chunks := swapAll sd.chunks, generation := sd.generation + 1 } = some s' := hs
    cases hs
    have hinv0 : containInv s.chunks (enqueueChunkChecks s) := by
      refine ⟨rfl, fun k i => rfl, ?_⟩
      intro a haq
      replace haq : a ∈ s.actions ++ s.chunks.map
        (fun e => Action.CheckChunkAt e.1.1 e.1.2) := haq
      rw [ha, List.nil_append] at haq
      obtain ⟨e, he, rfl⟩ := List.mem_map.mp haq
      show (findChunk s.chunks (e.1.1, e.1.2)).isSome = true
      exact (findChunk_isSome_iff ..).mpr (List.mem_map_of_mem Prod.fst he)
    have hfin := containInv_drain s.chunks
      (liveChunkNbrsPresent_alive0 s.chunks hH) n _ sd hinv0 hd
    show (swapAll sd.chunks).map Prod.fst = s.chunks.map Prod.fst
    rw [keys_swapAll]
    exact hfin.1

/-- Seed for the amended C5 witness: a single all-dead chunk (no live
cells, so the chunk-granularity hypothesis holds vacuously). -/
def ws5 : Universe :=
  { chunks := [((0, 0), Chunk.new 0 0)],
    actions := [], auto := false, generation := 0, vx := 0, vy := 0 }

set_option maxHeartbeats 1000000 in
theorem C5_growth_amended_witness :
    ws5.actions = [] ∧ liveChunkNbrsPresent ws5.chunks ∧
    step 100 ws5 = some ((step 100 ws5).getD emptyU) ∧
    ((step 100 ws5).getD emptyU).chunks.map Prod.fst = ws5.chunks.map Prod.fst :=
  ⟨rfl, by decide, by decide,
    C5_growth_amended ws5 100 ((step 100 ws5).getD emptyU) rfl (by decide) (by decide)⟩

/-! ### Still life (C8) -/

theorem execAction_genSet (a : Action) (s : Universe) (g : Nat) :
    execAction a { s with generation := g } = { execAction a s with generation := g } := by
  cases s with
  | mk ch ac au ge vx vy =>
    cases a <;> simp only [execAction] <;> first | rfl | (split <;> rfl)

theorem drainFuel_genSet :
    ∀ (n : Nat) (s : Universe) (g : Nat),
      drainFuel n { s with generation := g } =
        (drainFuel n s).map fun t => { t with generation := g } := by
  intro n
  induction n with
  | zero =>
    intro s g
    cases s with
    | mk ch ac au ge vx vy =>
      unfold drainFuel
      dsimp only
      by_cases h : ac = []
      · rw [if_pos h, if_pos h]
        rfl
      · rw [if_neg h, if_neg h]
        rfl
  | succ n ih =>
    intro s g
    cases s with
    | mk ch ac au ge vx vy =>
      unfold drainFuel
      dsimp only
      cases ac with
      | nil => rfl
      | cons a rest =>
        show drainFuel n (execAction a (Universe.mk ch rest au g vx vy)) =
          Option.map (fun t => { t with generation := g })
            (drainFuel n (execAction a (Universe.mk ch rest au ge vx vy)))
        rw [execAction_genSet a (Universe.mk ch rest au ge vx vy) g,
          ih (execAction a (Universe.mk ch rest au ge vx vy)) g]

theorem step_genSet (n : Nat) (s : Universe) (g : Nat) :
    step n { s with generation := g } =
      (step n s).map fun t => { t with generation := g + 1 } := by
  unfold step execute_actions
  rw [show enqueueChunkChecks { s with generation := g } =
    { enqueueChunkChecks s with generation := g } from rfl]
  rw [drainFuel_genSet]
  cases drainFuel n (enqueueChunkChecks s) <;> rfl

/-- Seed for C8: a 2×2 block at local cells (3,3)–(4,4) of the single
chunk (0,0) — away from every chunk boundary, all neighbours of all four
cells inside the chunk (as `main` seeds patterns,
`chunk.cells[x + y * CHUNK_SIZE].is_alive[0] = true`). -/
def w8 : Universe :=
  { chunks := [((0, 0), seedChunk 0 0 [27, 28, 35, 36])],
    actions := [], auto := false, generation := 0, vx := 0, vy := 0 }

/-- The state after one step on `w8`: the block is unchanged and the 8
neighbouring chunks of chunk (0,0) have been materialised all-dead (in
the order the queue created them). -/
def w8After : Universe :=
  { chunks := ((0, 0), seedChunk 0 0 [27, 28, 35, 36]) ::
      ([(1, 1), (0, 1), (-1, 1), (1, 0), (-1, 0), (1, -1), (0, -1), (-1, -1)] : List (Int × Int)).map
        (fun p => (p, Chunk.new p.1 p.2)),
    actions := [], auto := false, generation := 1, vx := 0, vy := 0 }

/-- Exactly the four block cells are alive; every other cell of every
chunk in the map is dead. -/
def onlyBlockAlive (M : ChunkMap) : Prop :=
  ∀ e ∈ M, ∀ i, i < e.2.cells.length →
    ((e.2.cells.getD i dummyCell).alive0 = true ↔
      (e.1 = ((0 : Int), (0 : Int)) ∧ i ∈ ([27, 28, 35, 36] : List Nat)))

instance : DecidablePred onlyBlockAlive := fun M => by
  unfold onlyBlockAlive
  infer_instance

/-- `n` invocations of `step()` starting from the block seed. -/
def iterStep8 : Nat → Option Universe
  | 0 => some w8
  | n + 1 => (iterStep8 n).bind (step 1000)

set_option maxHeartbeats 4000000 in
theorem step_w8 : step 1000 w8 = some w8After := by decide

set_option maxHeartbeats 16000000 in
theorem step_w8After : step 1000 w8After = some { w8After with generation := 2 } := by
  decide

theorem step_w8After_gen (g : Nat) :
    step 1000 { w8After with generation := g } =
      some { w8After with generation := g + 1 } := by
  rw [step_genSet, step_w8After]
  rfl

set_option maxHeartbeats 4000000 in
theorem iterStep8_succ (n : Nat) :
    iterStep8 (n + 1) = some { w8After with generation := n + 1 } := by
  induction n with
  | zero =>
    show (iterStep8 0).bind (step 1000) = _
    rw [show iterStep8 0 = some w8 from rfl, Option.some_bind', step_w8]
    exact congrArg some (by decide)
  | succ n ih =>
    show (iterStep8 (n + 1)).bind (step 1000) = _
    rw [ih, Option.some_bind']
    exact step_w8After_gen (n + 1)

/-- C8: starting from a 2×2 block placed away from any chunk boundary
(all four cells and all their neighbours inside the one existing chunk),
after any number of `step()` calls exactly those four cells are alive and
every other cell in the map is dead. -/
theorem C8_still_life (n : Nat) :
    ∃ s', iterStep8 n = some s' ∧ onlyBlockAlive s'.chunks := by
  cases n with
  | zero => exact ⟨w8, rfl, by decide⟩
  | succ n =>
    refine ⟨{ w8After with generation := n + 1 }, iterStep8_succ n, ?_⟩
    show onlyBlockAlive w8After.chunks
    decide

/-! ### Termination of the drain loop (C6): a lexicographic measure -/

/-- Coordinates a queued action mentions (chunk creations and chunk
checks). -/
def mentionCoords : Action → List (Int × Int)
  | .NewChunkAt x y => [(x, y)]
  | .CheckChunkAt x y => [(x, y)]
  | _ => []

/-- All coordinates mentioned by the queue. -/
def mentionsQ (q : List Action) : Finset (Int × Int) :=
  q.foldr (fun a acc => (mentionCoords a).toFinset ∪ acc) ∅

/-- Does the chunk contain a live (`is_alive[0]`) cell? -/
def chunkHasLive (ch : Chunk) : Bool := ch.cells.any (·.alive0)

/-- The chunk coordinates neighbouring some chunk that contains a live
cell — the only coordinates a cell evaluation can ever ask to create. -/
def liveNb (M : ChunkMap) : Finset (Int × Int) :=
  M.foldr
    (fun e acc =>
      (if chunkHasLive e.2
        then ((OFFSETS.map fun d => (e.1.1 + d.1, e.1.2 + d.2)).toFinset)
        else ∅) ∪ acc)
    ∅

/-- The key set of the chunk map, as a finset. -/
def keysF (M : ChunkMap) : Finset (Int × Int) := (M.map Prod.fst).toFinset

/-- First measure component: how many distinct coordinates are still
missing from the map but named by the queue or reachable by growth. -/
def measU (s : Universe) : Nat :=
  ((mentionsQ s.actions ∪ liveNb s.chunks) \ keysF s.chunks).card

/-- Second measure component: the number of live cells in the map. -/
def measL (s : Universe) : Nat :=
  (s.chunks.map fun e => e.2.cells.countP (·.alive0)).sum

/-- The longest cell list of any chunk (at least the 64 of a fresh
chunk); bounds how many cell checks one chunk check can enqueue. -/
def maxLen (M : ChunkMap) : Nat :=
  M.foldr (fun e acc => max e.2.cells.length acc) CHUNK_SIZE_SQR

/-- Per-action weight for the third measure component. -/
def wA (M : ChunkMap) : Action → Nat
  | .NewChunkAt x y => if (findChunk M (x, y)).isSome then maxLen M + 2 else 0
  | .CheckChunkAt _ _ => maxLen M + 1
  | _ => 1

/-- Third measure component: total queue weight. -/
def measW (s : Universe) : Nat := (s.actions.map (wA s.chunks)).sum

/-- The full lexicographic measure. -/
def measure3 (s : Universe) : Nat × Nat × Nat := (measU s, measL s, measW s)

theorem mem_mentionsQ (q : List Action) (k : Int × Int) :
    k ∈ mentionsQ q ↔ ∃ a ∈ q, k ∈ mentionCoords a := by
  induction q with
  | nil => simp [mentionsQ]
  | cons a q ih =>
    unfold mentionsQ at ih ⊢
    simp [List.foldr_cons, ih]

theorem mem_liveNb (M : ChunkMap) (k : Int × Int) :
    k ∈ liveNb M ↔ ∃ e ∈ M, chunkHasLive e.2 = true ∧
      ∃ d ∈ OFFSETS, k = (e.1.1 + d.1, e.1.2 + d.2) := by
  induction M with
  | nil => simp [liveNb]
  | cons e M ih =>
    unfold liveNb at ih ⊢
    rw [List.foldr_cons, Finset.mem_union, ih]
    constructor
    · rintro (hk | ⟨e', he', hl, d, hd, rfl⟩)
      · by_cases h : chunkHasLive e.2 = true
        · rw [if_pos h, List.mem_toFinset, List.mem_map] at hk
          obtain ⟨d, hd, rfl⟩ := hk
          exact ⟨e, List.mem_cons_self .., h, d, hd, rfl⟩
        · rw [if_neg h] at hk
          exact absurd hk (Finset.not_mem_empty k)
      · exact ⟨e', List.mem_cons_of_mem e he', hl, d, hd, rfl⟩
    · rintro ⟨e', he', hl, d, hd, rfl⟩
      rcases List.mem_cons.mp he' with rfl | he'
      · left
        rw [if_pos hl, List.mem_toFinset, List.mem_map]
        exact ⟨d, hd, rfl⟩
      · right
        exact ⟨e', he', hl, d, hd, rfl⟩

theorem mem_keysF (M : ChunkMap) (k : Int × Int) :
    k ∈ keysF M ↔ ∃ e ∈ M, e.1 = k := by
  unfold keysF
  rw [List.mem_toFinset, List.mem_map]

theorem chunkHasLive_new (x y : Int) : chunkHasLive (Chunk.new x y) = false := by
  unfold chunkHasLive Chunk.new
  simp

theorem countP_alive0_new (x y : Int) :
    (Chunk.new x y).cells.countP (·.alive0) = 0 := by
  unfold Chunk.new
  rw [List.countP_eq_zero]
  intro c hc
  rw [List.mem_map] at hc
  obtain ⟨i, hi, rfl⟩ := hc
  simp

theorem any_setAlive1 (cs : List Cell) (i : Nat) (b : Bool) :
    (setAlive1 cs i b).any (·.alive0) = cs.any (·.alive0) := by
  induction cs generalizing i with
  | nil => rfl
  | cons c cs ih =>
    cases i with
    | zero => rfl
    | succ i =>
      show (c.alive0 || (setAlive1 cs i b).any (·.alive0)) = (c.alive0 || cs.any (·.alive0))
      rw [ih]

theorem countP_setAlive1 (cs : List Cell) (i : Nat) (b : Bool) :
    (setAlive1 cs i b).countP (·.alive0) = cs.countP (·.alive0) := by
  induction cs generalizing i with
  | nil => rfl
  | cons c cs ih =>
    cases i with
    | zero =>
      rw [show setAlive1 (c :: cs) 0 b = { c with alive1 := b } :: cs from rfl,
        List.countP_cons, List.countP_cons]
    | succ i =>
      rw [show setAlive1 (c :: cs) (i + 1) b = c :: setAlive1 cs i b from rfl,
        List.countP_cons, List.countP_cons, ih]

theorem chunkHasLive_of_getD (cs : List Cell) (i : Nat) (d : Cell)
    (h : (cs.getD i d).alive0 = true) (hi : i < cs.length) :
    cs.any (·.alive0) = true := by
  rw [List.any_eq_true]
  refine ⟨cs.getD i d, ?_, h⟩
  rw [List.getD_eq_getElem?_getD, List.getElem?_eq_getElem hi]
  exact List.getElem_mem ..

theorem le_maxLen_of_mem (M : ChunkMap) (e : (Int × Int) × Chunk) (he : e ∈ M) :
    e.2.cells.length ≤ maxLen M := by
  induction M with
  | nil => cases he
  | cons e' M ih =>
    unfold maxLen at ih ⊢
    rw [List.foldr_cons]
    rcases List.mem_cons.mp he with rfl | he
    · exact Nat.le_max_left ..
    · exact le_trans (ih he) (Nat.le_max_right ..)

theorem csqr_le_maxLen (M : ChunkMap) : CHUNK_SIZE_SQR ≤ maxLen M := by
  induction M with
  | nil => exact le_refl _
  | cons e M ih =>
    unfold maxLen at ih ⊢
    rw [List.foldr_cons]
    exact le_trans ih (Nat.le_max_right ..)

theorem maxLen_map_le (M : ChunkMap) (f : (Int × Int) × Chunk → (Int × Int) × Chunk)
    (h : ∀ e ∈ M, (f e).2.cells.length = e.2.cells.length ∨
      (f e).2.cells.length = CHUNK_SIZE_SQR) :
    maxLen (M.map f) ≤ maxLen M := by
  induction M with
  | nil => exact le_refl _
  | cons e M ih =>
    unfold maxLen at ih ⊢
    rw [List.map_cons, List.foldr_cons, List.foldr_cons]
    have h1 := h e (List.mem_cons_self ..)
    have h2 := ih (fun e' he' => h e' (List.mem_cons_of_mem e he'))
    rcases h1 with h1 | h1 <;> rw [h1]
    · exact max_le_max (le_refl _) h2
    · exact max_le (le_trans (csqr_le_maxLen M) (le_max_right ..))
        (le_trans h2 (le_max_right ..))

theorem maxLen_writeAlive1 (M : ChunkMap) (k : Int × Int) (i : Nat) (b : Bool) :
    maxLen (writeAlive1 M k i b) = maxLen M := by
  unfold writeAlive1
  induction M with
  | nil => rfl
  | cons e M ih =>
    unfold maxLen at ih ⊢
    rw [List.map_cons, List.foldr_cons, List.foldr_cons, ih]
    by_cases he : e.1 = k
    · rw [if_pos he]
      show max (setAlive1 e.2.cells i b).length _ = _
      rw [setAlive1_length]
    · rw [if_neg he]

theorem maxLen_evalCellChunks (M : ChunkMap) (x y : Int) (i : Nat) :
    maxLen (evalCellChunks M x y i) = maxLen M := by
  rcases evalCellChunks_shape M x y i with hs | ⟨b, hs⟩
  · rw [hs]
  · rw [hs, maxLen_writeAlive1]

theorem maxLen_append_new (M : ChunkMap) (k : Int × Int) (x y : Int) :
    maxLen (M ++ [(k, Chunk.new x y)]) = maxLen M := by
  induction M with
  | nil =>
    unfold maxLen Chunk.new
    rw [List.nil_append]
    show max ((List.range CHUNK_SIZE_SQR).map _).length CHUNK_SIZE_SQR = CHUNK_SIZE_SQR
    rw [List.length_map, List.length_range]
    exact Nat.max_self _
  | cons e M ih =>
    unfold maxLen at ih ⊢
    rw [List.cons_append, List.foldr_cons, List.foldr_cons, ih]

theorem maxLen_insertChunk_le (M : ChunkMap) (k : Int × Int) (x y : Int) :
    maxLen (insertChunk M k (Chunk.new x y)) ≤ maxLen M := by
  unfold insertChunk
  split
  · refine maxLen_map_le M _ fun e he => ?_
    by_cases hek : e.1 = k
    · rw [if_pos hek]
      right
      show ((List.range CHUNK_SIZE_SQR).map _).length = _
      rw [List.length_map, List.length_range]
    · rw [if_neg hek]
      left
      rfl
  · rw [maxLen_append_new]

/-- Live-cell total of a chunk map. -/
def measLM (M : ChunkMap) : Nat := (M.map fun e => e.2.cells.countP (·.alive0)).sum

theorem measL_eq (s : Universe) : measL s = measLM s.chunks := rfl

theorem measLM_map_congr (M : ChunkMap) (f : (Int × Int) × Chunk → (Int × Int) × Chunk)
    (h : ∀ e ∈ M, (f e).2.cells.countP (·.alive0) = e.2.cells.countP (·.alive0)) :
    measLM (M.map f) = measLM M := by
  unfold measLM
  rw [List.map_map]
  exact congrArg List.sum (List.map_congr_left fun e he => h e he)

theorem measLM_writeAlive1 (M : ChunkMap) (k : Int × Int) (i : Nat) (b : Bool) :
    measLM (writeAlive1 M k i b) = measLM M := by
  unfold writeAlive1
  refine measLM_map_congr M _ fun e he => ?_
  by_cases hek : e.1 = k
  · rw [if_pos hek]
    exact countP_setAlive1 ..
  · rw [if_neg hek]

theorem measLM_evalCellChunks (M : ChunkMap) (x y : Int) (i : Nat) :
    measLM (evalCellChunks M x y i) = measLM M := by
  rcases evalCellChunks_shape M x y i with hs | ⟨b, hs⟩
  · rw [hs]
  · rw [hs, measLM_writeAlive1]

theorem measLM_append_new (M : ChunkMap) (k : Int × Int) (x y : Int) :
    measLM (M ++ [(k, Chunk.new x y)]) = measLM M := by
  unfold measLM
  rw [List.map_append, List.sum_append]
  show _ + (Chunk.new x y).cells.countP (·.alive0) = _
  rw [countP_alive0_new]
  omega

theorem measLM_insert_le (M : ChunkMap) (k : Int × Int) (x y : Int) :
    measLM (M.map fun e => if e.1 = k then (k, Chunk.new x y) else e) ≤ measLM M := by
  unfold measLM
  rw [List.map_map]
  refine List.sum_le_sum fun e he => ?_
  show ((if e.1 = k then ((k, Chunk.new x y) : (Int × Int) × Chunk) else e)).2.cells.countP
    (·.alive0) ≤ _
  by_cases hek : e.1 = k
  · rw [if_pos hek]
    show (Chunk.new x y).cells.countP (·.alive0) ≤ _
    rw [countP_alive0_new]
    exact Nat.zero_le _
  · rw [if_neg hek]

theorem measLM_insert_lt (M : ChunkMap) (k : Int × Int) (x y : Int)
    (e0 : (Int × Int) × Chunk) (he0 : e0 ∈ M) (hk0 : e0.1 = k)
    (hl0 : 0 < e0.2.cells.countP (·.alive0)) :
    measLM (M.map fun e => if e.1 = k then (k, Chunk.new x y) else e) < measLM M := by
  induction M with
  | nil => cases he0
  | cons e M ih =>
    unfold measLM at ih ⊢
    rw [List.map_cons, List.map_cons, List.map_cons, List.sum_cons, List.sum_cons]
    rcases List.mem_cons.mp he0 with rfl | he0
    · refine Nat.add_lt_add_of_lt_of_le ?_ ?_
      · show ((if e0.1 = k then ((k, Chunk.new x y) : (Int × Int) × Chunk) else e0)).2.cells.countP (·.alive0) < _
        rw [if_pos hk0]
        show (Chunk.new x y).cells.countP (·.alive0) < _
        rw [countP_alive0_new]
        exact hl0
      · have hle := measLM_insert_le M k x y
        unfold measLM at hle
        rw [List.map_map] at hle ⊢
        exact hle
    · refine Nat.add_lt_add_of_le_of_lt ?_ (ih he0)
      show ((if e.1 = k then ((k, Chunk.new x y) : (Int × Int) × Chunk) else e)).2.cells.countP (·.alive0) ≤ _
      by_cases hek : e.1 = k
      · rw [if_pos hek]
        show (Chunk.new x y).cells.countP (·.alive0) ≤ _
        rw [countP_alive0_new]
        exact Nat.zero_le _
      · rw [if_neg hek]

theorem keysF_of_keys_eq (M1 M2 : ChunkMap)
    (h : M1.map Prod.fst = M2.map Prod.fst) : keysF M1 = keysF M2 := by
  unfold keysF
  rw [h]

theorem keysF_insert_absent (M : ChunkMap) (k : Int × Int) (c : Chunk)
    (h : ¬(findChunk M k).isSome) :
    keysF (insertChunk M k c) = keysF M ∪ {k} := by
  unfold keysF
  rw [keys_insertChunk_absent M k c h, List.toFinset_append]
  rfl

theorem liveNb_map_congr (M : ChunkMap) (f : (Int × Int) × Chunk → (Int × Int) × Chunk)
    (hk : ∀ e ∈ M, (f e).1 = e.1)
    (hl : ∀ e ∈ M, chunkHasLive (f e).2 = chunkHasLive e.2) :
    liveNb (M.map f) = liveNb M := by
  ext c
  rw [mem_liveNb, mem_liveNb]
  constructor
  · rintro ⟨e', he', hlv, d, hd, rfl⟩
    obtain ⟨e, he, rfl⟩ := List.mem_map.mp he'
    refine ⟨e, he, by rw [← hl e he]; exact hlv, d, hd, ?_⟩
    rw [hk e he]
  · rintro ⟨e, he, hlv, d, hd, rfl⟩
    refine ⟨f e, List.mem_map_of_mem f he, by rw [hl e he]; exact hlv, d, hd, ?_⟩
    rw [hk e he]

theorem liveNb_writeAlive1 (M : ChunkMap) (k : Int × Int) (i : Nat) (b : Bool) :
    liveNb (writeAlive1 M k i b) = liveNb M := by
  unfold writeAlive1
  refine liveNb_map_congr M _ (fun e he => ?_) (fun e he => ?_)
  · by_cases hek : e.1 = k
    · rw [if_pos hek, hek]
    · rw [if_neg hek]
  · by_cases hek : e.1 = k
    · rw [if_pos hek]
      show chunkHasLive { e.2 with cells := setAlive1 e.2.cells i b } = _
      unfold chunkHasLive
      exact any_setAlive1 ..
    · rw [if_neg hek]

theorem liveNb_evalCellChunks (M : ChunkMap) (x y : Int) (i : Nat) :
    liveNb (evalCellChunks M x y i) = liveNb M := by
  rcases evalCellChunks_shape M x y i with hs | ⟨b, hs⟩
  · rw [hs]
  · rw [hs, liveNb_writeAlive1]

theorem liveNb_append_new (M : ChunkMap) (k : Int × Int) (x y : Int) :
    liveNb (M ++ [(k, Chunk.new x y)]) = liveNb M := by
  ext c
  rw [mem_liveNb, mem_liveNb]
  constructor
  · rintro ⟨e, he, hlv, d, hd, rfl⟩
    rcases List.mem_append.mp he with he | he
    · exact ⟨e, he, hlv, d, hd, rfl⟩
    · rw [List.mem_singleton.mp he] at hlv
      rw [chunkHasLive_new] at hlv
      cases hlv
  · rintro ⟨e, he, hlv, d, hd, rfl⟩
    exact ⟨e, List.mem_append_left _ he, hlv, d, hd, rfl⟩

theorem liveNb_insert_present_subset (M : ChunkMap) (k : Int × Int) (x y : Int) :
    liveNb (M.map fun e => if e.1 = k then (k, Chunk.new x y) else e) ⊆ liveNb M := by
  intro c hc
  rw [mem_liveNb] at hc ⊢
  obtain ⟨e', he', hlv, d, hd, rfl⟩ := hc
  obtain ⟨e, he, rfl⟩ := List.mem_map.mp he'
  by_cases hek : e.1 = k
  · rw [if_pos hek] at hlv
    rw [chunkHasLive_new] at hlv
    cases hlv
  · rw [if_neg hek] at hlv ⊢
    exact ⟨e, he, hlv, d, hd, rfl⟩

theorem liveNb_insert_dead_eq (M : ChunkMap) (k : Int × Int) (x y : Int)
    (hdead : ∀ e ∈ M, e.1 = k → chunkHasLive e.2 = false) :
    liveNb (M.map fun e => if e.1 = k then (k, Chunk.new x y) else e) = liveNb M := by
  refine liveNb_map_congr M _ (fun e he => ?_) (fun e he => ?_)
  · by_cases hek : e.1 = k
    · rw [if_pos hek, hek]
    · rw [if_neg hek]
  · by_cases hek : e.1 = k
    · rw [if_pos hek]
      show chunkHasLive (Chunk.new x y) = _
      rw [chunkHasLive_new, hdead e he hek]
    · rw [if_neg hek]

theorem wA_le (M' M : ChunkMap) (hkeys : M'.map Prod.fst = M.map Prod.fst)
    (hlen : maxLen M' ≤ maxLen M) (a : Action) : wA M' a ≤ wA M a := by
  cases a with
  | NewChunkAt x y =>
    show (if (findChunk M' (x, y)).isSome then maxLen M' + 2 else 0) ≤
      (if (findChunk M (x, y)).isSome then maxLen M + 2 else 0)
    rw [isSome_of_keys_eq M' M hkeys]
    by_cases h : (findChunk M (x, y)).isSome
    · rw [if_pos h, if_pos h]
      omega
    · rw [if_neg h, if_neg h]
  | CheckChunkAt x y =>
    show maxLen M' + 1 ≤ maxLen M + 1
    omega
  | CheckCellAt x y i => exact le_refl _
  | MoveLeft => exact le_refl _
  | MoveRight => exact le_refl _
  | MoveUp => exact le_refl _
  | MoveDown => exact le_refl _
  | ChangeMode => exact le_refl _

theorem wA_eq (M' M : ChunkMap) (hkeys : M'.map Prod.fst = M.map Prod.fst)
    (hlen : maxLen M' = maxLen M) (a : Action) : wA M' a = wA M a :=
  le_antisymm (wA_le M' M hkeys (le_of_eq hlen) a)
    (wA_le M M' hkeys.symm (le_of_eq hlen.symm) a)

theorem mentionsQ_cons (a : Action) (q : List Action) :
    mentionsQ (a :: q) = (mentionCoords a).toFinset ∪ mentionsQ q := rfl

theorem mentionsQ_append (l1 l2 : List Action) :
    mentionsQ (l1 ++ l2) = mentionsQ l1 ∪ mentionsQ l2 := by
  ext c
  rw [Finset.mem_union, mem_mentionsQ, mem_mentionsQ, mem_mentionsQ]
  constructor
  · rintro ⟨a, ha, hc⟩
    rcases List.mem_append.mp ha with ha | ha
    · exact Or.inl ⟨a, ha, hc⟩
    · exact Or.inr ⟨a, ha, hc⟩
  · rintro (⟨a, ha, hc⟩ | ⟨a, ha, hc⟩)
    · exact ⟨a, List.mem_append_left _ ha, hc⟩
    · exact ⟨a, List.mem_append_right _ ha, hc⟩

theorem mentionsQ_reverse (l : List Action) :
    mentionsQ l.reverse = mentionsQ l := by
  ext c
  rw [mem_mentionsQ, mem_mentionsQ]
  constructor
  · rintro ⟨a, ha, hc⟩
    exact ⟨a, List.mem_reverse.mp ha, hc⟩
  · rintro ⟨a, ha, hc⟩
    exact ⟨a, List.mem_reverse.mpr ha, hc⟩

theorem pushFrontAll_eq (l q : List Action) :
    pushFrontAll l q = l.reverse ++ q := by
  induction l generalizing q with
  | nil => rfl
  | cons a l ih =>
    show pushFrontAll l (a :: q) = _
    rw [ih, List.reverse_cons, List.append_assoc]
    rfl

theorem mentionsQ_cellChecks (n : Nat) (x y : Int) :
    mentionsQ ((List.range n).map (Action.CheckCellAt x y ·)) = ∅ := by
  ext c
  rw [mem_mentionsQ]
  simp only [Finset.not_mem_empty, iff_false]
  rintro ⟨a, ha, hc⟩
  obtain ⟨i, -, rfl⟩ := List.mem_map.mp ha
  cases hc

theorem mem_keysF_iff_isSome (M : ChunkMap) (k : Int × Int) :
    k ∈ keysF M ↔ (findChunk M k).isSome = true := by
  rw [findChunk_isSome_iff]
  unfold keysF
  rw [List.mem_toFinset]

/-- The lexicographic order on the measure. -/
def MLex : Nat × Nat × Nat → Nat × Nat × Nat → Prop :=
  Prod.Lex (· < ·) (Prod.Lex (· < ·) (· < ·))

theorem MLex_left {u1 u2 l1 l2 w1 w2 : Nat} (h : u1 < u2) :
    MLex (u1, l1, w1) (u2, l2, w2) := Prod.Lex.left _ _ h

theorem MLex_mid {u1 u2 l1 l2 w1 w2 : Nat} (hu : u1 = u2) (h : l1 < l2) :
    MLex (u1, l1, w1) (u2, l2, w2) := by
  cases hu
  exact Prod.Lex.right _ (Prod.Lex.left _ _ h)

theorem MLex_right {u1 u2 l1 l2 w1 w2 : Nat} (hu : u1 = u2) (hl : l1 = l2)
    (h : w1 < w2) : MLex (u1, l1, w1) (u2, l2, w2) := by
  cases hu
  cases hl
  exact Prod.Lex.right _ (Prod.Lex.right _ h)

theorem MLex_wf : WellFounded MLex :=
  WellFounded.prod_lex (wellFounded_lt)
    (WellFounded.prod_lex (wellFounded_lt) (wellFounded_lt))

/-- The measure, as a function of the chunk map and the queue. -/
def measC (M : ChunkMap) (q : List Action) : Nat × Nat × Nat :=
  (((mentionsQ q ∪ liveNb M) \ keysF M).card, measLM M, (q.map (wA M)).sum)

theorem measure3_eq (s : Universe) : measure3 s = measC s.chunks s.actions := rfl

theorem sum_map_one {β : Type} (l : List β) (f : β → Nat)
    (h : ∀ b ∈ l, f b = 1) : (l.map f).sum = l.length := by
  induction l with
  | nil => rfl
  | cons b l ih =>
    rw [List.map_cons, List.sum_cons, List.length_cons,
      h b (List.mem_cons_self ..), ih fun b hb => h b (List.mem_cons_of_mem _ hb)]
    omega

theorem findChunk_some_mem (M : ChunkMap) (k : Int × Int) (ch : Chunk)
    (hch : findChunk M k = some ch) : ∃ e ∈ M, e.1 = k ∧ e.2 = ch := by
  unfold findChunk at hch
  rcases hf : M.find? fun e => e.1 = k with - | e
  · rw [hf] at hch
    cases hch
  · rw [hf] at hch
    refine ⟨e, List.mem_of_find?_eq_some hf, by simpa using List.find?_some hf, ?_⟩
    simpa using hch

theorem chunkHasLive_countP_pos (ch : Chunk) (h : chunkHasLive ch = true) :
    0 < ch.cells.countP (·.alive0) := by
  unfold chunkHasLive at h
  rw [List.any_eq_true] at h
  obtain ⟨c, hc, halive⟩ := h
  rw [List.countP_pos_iff]
  exact ⟨c, hc, halive⟩

theorem keysF_insertChunk_present (M : ChunkMap) (k : Int × Int) (c : Chunk)
    (h : (findChunk M k).isSome) :
    (insertChunk M k c).map Prod.fst = M.map Prod.fst :=
  keys_insertChunk_present M k c h

theorem liveNb_insertChunk_new_subset (M : ChunkMap) (k : Int × Int) (x y : Int) :
    liveNb (insertChunk M k (Chunk.new x y)) ⊆ liveNb M := by
  unfold insertChunk
  split
  · exact liveNb_insert_present_subset M k x y
  · rw [liveNb_append_new]

theorem measLM_insert_dead_eq (M : ChunkMap) (k : Int × Int) (x y : Int)
    (hpres : (findChunk M k).isSome)
    (hdead : ∀ e ∈ M, e.1 = k → chunkHasLive e.2 = false) :
    measLM (insertChunk M k (Chunk.new x y)) = measLM M := by
  unfold insertChunk
  rw [if_pos hpres]
  refine measLM_map_congr M _ fun e he => ?_
  by_cases hek : e.1 = k
  · rw [if_pos hek]
    show (Chunk.new x y).cells.countP (·.alive0) = _
    rw [countP_alive0_new]
    have hd := hdead e he hek
    unfold chunkHasLive at hd
    rw [List.any_eq_false] at hd
    rw [eq_comm, List.countP_eq_zero]
    exact hd
  · rw [if_neg hek]

/-- Popping an action that mentions nothing, pushes nothing and weighs at
least 1 (cell checks on absent chunks, viewport moves, mode toggles). -/
theorem measC_pop (M : ChunkMap) (a : Action) (rest : List Action)
    (hm : (mentionCoords a).toFinset = (∅ : Finset (Int × Int)))
    (hw : 1 ≤ wA M a) :
    MLex (measC M rest) (measC M (a :: rest)) := by
  refine MLex_right ?_ rfl ?_
  · rw [show mentionsQ (a :: rest) = (mentionCoords a).toFinset ∪ mentionsQ rest from rfl,
      hm, Finset.empty_union]
  · rw [List.map_cons, List.sum_cons]
    omega

/-- A `CheckChunkAt` on an absent chunk re-queues its creation: weight
drops from `maxLen + 1` to `0`. -/
theorem measC_chunk_absent (M : ChunkMap) (x y : Int) (rest : List Action)
    (hch : findChunk M (x, y) = none) :
    MLex (measC M (.NewChunkAt x y :: rest)) (measC M (.CheckChunkAt x y :: rest)) := by
  refine MLex_right rfl rfl ?_
  rw [List.map_cons, List.sum_cons, List.map_cons, List.sum_cons]
  have h1 : wA M (.NewChunkAt x y) = 0 := by
    show (if (findChunk M (x, y)).isSome then maxLen M + 2 else 0) = 0
    rw [hch]
    rfl
  have h2 : wA M (.CheckChunkAt x y) = maxLen M + 1 := rfl
  rw [h1, h2]
  omega

/-- A `CheckChunkAt` on a present chunk fans out to one weight-1 cell
check per cell: total weight drops by at least 1. -/
theorem measC_chunk_present (M : ChunkMap) (x y : Int) (ch : Chunk) (rest : List Action)
    (hch : findChunk M (x, y) = some ch) :
    MLex (measC M (rest ++ (List.range ch.cells.length).map (.CheckCellAt x y ·)))
      (measC M (.CheckChunkAt x y :: rest)) := by
  have hpres : ((x, y) : Int × Int) ∈ keysF M := by
    rw [mem_keysF_iff_isSome, hch]
    rfl
  refine MLex_right ?_ rfl ?_
  · rw [mentionsQ_append, mentionsQ_cellChecks, Finset.union_empty,
      show mentionsQ (Action.CheckChunkAt x y :: rest) =
        (mentionCoords (Action.CheckChunkAt x y)).toFinset ∪ mentionsQ rest from rfl]
    congr 1
    ext c
    rw [Finset.mem_sdiff, Finset.mem_sdiff, Finset.mem_union, Finset.mem_union,
      Finset.mem_union]
    constructor
    · rintro ⟨hin, hnk⟩
      rcases hin with hin | hin
      · exact ⟨Or.inl (Or.inr hin), hnk⟩
      · exact ⟨Or.inr hin, hnk⟩
    · rintro ⟨hin, hnk⟩
      rcases hin with (hin | hin) | hin
      · rw [show (mentionCoords (Action.CheckChunkAt x y)).toFinset =
          ({(x, y)} : Finset (Int × Int)) from rfl, Finset.mem_singleton] at hin
        exact absurd (hin ▸ hpres) hnk
      · exact ⟨Or.inl hin, hnk⟩
      · exact ⟨Or.inr hin, hnk⟩
  · rw [List.map_append, List.sum_append, List.map_cons, List.sum_cons]
    have hcells :
        ((((List.range ch.cells.length)).map (Action.CheckCellAt x y ·)).map (wA M)).sum =
          ch.cells.length := by
      rw [List.map_map]
      rw [sum_map_one (List.range ch.cells.length)
        (wA M ∘ (Action.CheckCellAt x y ·)) fun b _ => rfl]
      exact List.length_range ..
    rw [hcells]
    have hlen : ch.cells.length ≤ maxLen M := by
      obtain ⟨e, he, -, he2⟩ := findChunk_some_mem M (x, y) ch hch
      rw [← he2]
      exact le_maxLen_of_mem M e he
    have h2 : wA M (.CheckChunkAt x y) = maxLen M + 1 := rfl
    rw [h2]
    omega

/-- A cell check on a present chunk: the queue loses weight 1 and gains
only weight-0 chunk creations, all of whose coordinates were already
counted in `liveNb`. -/
theorem measC_cell (M : ChunkMap) (x y : Int) (idx : Nat) (grown rest : List Action)
    (hsub : mentionsQ grown ⊆ liveNb M)
    (hw0 : ∀ b ∈ grown, wA M b = 0) :
    MLex (measC (evalCellChunks M x y idx) (pushFrontAll grown rest))
      (measC M (.CheckCellAt x y idx :: rest)) := by
  refine MLex_right ?_ (measLM_evalCellChunks ..) ?_
  · rw [pushFrontAll_eq, mentionsQ_append, mentionsQ_reverse, liveNb_evalCellChunks,
      keysF_of_keys_eq _ M (keys_evalCellChunks ..),
      show mentionsQ (Action.CheckCellAt x y idx :: rest) =
        (mentionCoords (Action.CheckCellAt x y idx)).toFinset ∪ mentionsQ rest from rfl,
      show (mentionCoords (Action.CheckCellAt x y idx)).toFinset =
        (∅ : Finset (Int × Int)) from rfl,
      Finset.empty_union]
    congr 1
    ext c
    rw [Finset.mem_sdiff, Finset.mem_sdiff, Finset.mem_union, Finset.mem_union,
      Finset.mem_union]
    constructor
    · rintro ⟨(hc | hc) | hc, hnk⟩
      · exact ⟨Or.inr (hsub hc), hnk⟩
      · exact ⟨Or.inl hc, hnk⟩
      · exact ⟨Or.inr hc, hnk⟩
    · rintro ⟨hc | hc, hnk⟩
      · exact ⟨Or.inl (Or.inr hc), hnk⟩
      · exact ⟨Or.inr hc, hnk⟩
  · rw [pushFrontAll_eq]
    have hwa := wA_eq (evalCellChunks M x y idx) M (keys_evalCellChunks ..)
      (maxLen_evalCellChunks ..)
    rw [List.map_congr_left fun b _ => hwa b, List.map_append, List.sum_append,
      List.map_cons, List.sum_cons]
    have h0 : ((grown.reverse.map (wA M))).sum = 0 := by
      refine List.sum_eq_zero fun w hw => ?_
      obtain ⟨b, hb, rfl⟩ := List.mem_map.mp hw
      exact hw0 b (List.mem_reverse.mp hb)
    rw [h0]
    have h1 : wA M (.CheckCellAt x y idx) = 1 := rfl
    rw [h1]
    omega

/-- Creating an absent chunk strictly shrinks the set of missing,
reachable coordinates. -/
theorem measC_na_absent (M : ChunkMap) (x y : Int) (rest : List Action)
    (hch : findChunk M (x, y) = none) :
    MLex (measC (insertChunk M (x, y) (Chunk.new x y)) (.CheckChunkAt x y :: rest))
      (measC M (.NewChunkAt x y :: rest)) := by
  have habs : ¬(findChunk M (x, y)).isSome = true := by
    rw [hch]
    simp
  have hnk : ((x, y) : Int × Int) ∉ keysF M := fun hk =>
    habs ((mem_keysF_iff_isSome ..).mp hk)
  refine MLex_left ?_
  rw [keysF_insert_absent M _ _ habs]
  have hlnb : liveNb (insertChunk M (x, y) (Chunk.new x y)) = liveNb M := by
    unfold insertChunk
    rw [if_neg habs]
    exact liveNb_append_new ..
  rw [hlnb,
    show mentionsQ (Action.CheckChunkAt x y :: rest) =
      (mentionCoords (Action.CheckChunkAt x y)).toFinset ∪ mentionsQ rest from rfl,
    show mentionsQ (Action.NewChunkAt x y :: rest) =
      (mentionCoords (Action.NewChunkAt x y)).toFinset ∪ mentionsQ rest from rfl,
    show (mentionCoords (Action.CheckChunkAt x y)).toFinset =
      ({(x, y)} : Finset (Int × Int)) from rfl,
    show (mentionCoords (Action.NewChunkAt x y)).toFinset =
      ({(x, y)} : Finset (Int × Int)) from rfl]
  apply Finset.card_lt_card
  rw [Finset.ssubset_iff_of_subset
    (Finset.sdiff_subset_sdiff (le_refl _) (Finset.subset_union_left))]
  refine ⟨(x, y), ?_, ?_⟩
  · rw [Finset.mem_sdiff]
    exact ⟨Finset.mem_union_left _ (Finset.mem_union_left _ (Finset.mem_singleton_self _)), hnk⟩
  · rw [Finset.mem_sdiff]
    rintro ⟨-, hn⟩
    exact hn (Finset.mem_union_right _ (Finset.mem_singleton_self _))

/-- Re-creating a present chunk: the missing set cannot grow; either a
live chunk is wiped (the live count drops) or everything it replaces was
dead (the queue weight drops by at least 1). -/
theorem measC_na_present (M : ChunkMap) (x y : Int) (ch : Chunk) (rest : List Action)
    (hch : findChunk M (x, y) = some ch) :
    MLex (measC (insertChunk M (x, y) (Chunk.new x y)) (.CheckChunkAt x y :: rest))
      (measC M (.NewChunkAt x y :: rest)) := by
  have hpres : (findChunk M (x, y)).isSome = true := by
    rw [hch]
    rfl
  have hkeys := keys_insertChunk_present M (x, y) (Chunk.new x y) hpres
  have hkF : keysF (insertChunk M (x, y) (Chunk.new x y)) = keysF M :=
    keysF_of_keys_eq _ _ hkeys
  have hmax := maxLen_insertChunk_le M (x, y) x y
  have hUle : (((mentionsQ (Action.CheckChunkAt x y :: rest) ∪
        liveNb (insertChunk M (x, y) (Chunk.new x y))) \
        keysF (insertChunk M (x, y) (Chunk.new x y))).card) ≤
      ((mentionsQ (Action.NewChunkAt x y :: rest) ∪ liveNb M) \ keysF M).card := by
    rw [hkF]
    refine Finset.card_le_card (Finset.sdiff_subset_sdiff ?_ (le_refl _))
    rw [show mentionsQ (Action.CheckChunkAt x y :: rest) =
        ({(x, y)} : Finset (Int × Int)) ∪ mentionsQ rest from rfl,
      show mentionsQ (Action.NewChunkAt x y :: rest) =
        ({(x, y)} : Finset (Int × Int)) ∪ mentionsQ rest from rfl]
    exact Finset.union_subset_union (le_refl _) (liveNb_insertChunk_new_subset ..)
  rcases lt_or_eq_of_le hUle with hU | hU
  · exact MLex_left hU
  · by_cases hlive : ∃ e ∈ M, e.1 = (x, y) ∧ chunkHasLive e.2 = true
    · obtain ⟨e0, he0, hk0, hl0⟩ := hlive
      refine MLex_mid hU ?_
      show measLM (insertChunk M (x, y) (Chunk.new x y)) < measLM M
      unfold insertChunk
      rw [if_pos hpres]
      exact measLM_insert_lt M (x, y) x y e0 he0 hk0 (chunkHasLive_countP_pos _ hl0)
    · have hdead : ∀ e ∈ M, e.1 = (x, y) → chunkHasLive e.2 = false := by
        intro e he hek
        by_contra hc
        exact hlive ⟨e, he, hek, by revert hc; cases chunkHasLive e.2 <;> simp⟩
      refine MLex_right hU (measLM_insert_dead_eq M (x, y) x y hpres hdead) ?_
      rw [List.map_cons, List.sum_cons, List.map_cons, List.sum_cons]
      have h2 : wA M (.NewChunkAt x y) = maxLen M + 2 := by
        show (if (findChunk M (x, y)).isSome then maxLen M + 2 else 0) = _
        rw [if_pos hpres]
      have h1 : wA (insertChunk M (x, y) (Chunk.new x y)) (.CheckChunkAt x y) =
          maxLen (insertChunk M (x, y) (Chunk.new x y)) + 1 := rfl
      have hrest : ((rest.map (wA (insertChunk M (x, y) (Chunk.new x y))))).sum ≤
          (rest.map (wA M)).sum :=
        List.sum_le_sum fun b _ => wA_le _ M hkeys hmax b
      rw [h1, h2]
      omega

/-- Every executed action strictly decreases the lexicographic measure. -/
theorem measure3_drainOnce (s : Universe) (h : s.actions ≠ []) :
    MLex (measure3 (drainOnce s)) (measure3 s) := by
  rcases ha : s.actions with - | ⟨a, rest⟩
  · exact absurd ha h
  · have hdo : drainOnce s = execAction a { s with actions := rest } := by
      unfold drainOnce
      rw [ha]
    rw [hdo, measure3_eq, measure3_eq, ha]
    cases a with
    | MoveLeft => exact measC_pop s.chunks .MoveLeft rest rfl (le_refl 1)
    | MoveRight => exact measC_pop s.chunks .MoveRight rest rfl (le_refl 1)
    | MoveUp => exact measC_pop s.chunks .MoveUp rest rfl (le_refl 1)
    | MoveDown => exact measC_pop s.chunks .MoveDown rest rfl (le_refl 1)
    | ChangeMode => exact measC_pop s.chunks .ChangeMode rest rfl (le_refl 1)
    | CheckCellAt x y idx =>
      rcases hch : findChunk s.chunks (x, y) with - | ch
      · have hex : execAction (.CheckCellAt x y idx) { s with actions := rest } =
            { s with actions := rest } := by
          simp only [execAction, hch]
        rw [hex]
        exact measC_pop s.chunks (.CheckCellAt x y idx) rest rfl (le_refl 1)
      · rw [execAction_checkCell_chunks,
          execAction_checkCell_actions { s with actions := rest } x y idx ch hch]
        by_cases halive : (ch.cells.getD idx dummyCell).alive0 = true
        · rw [if_pos halive]
          refine measC_cell s.chunks x y idx _ _ ?_ ?_
          · intro c hc
            rw [mem_mentionsQ] at hc
            obtain ⟨b, hb, hcb⟩ := hc
            rw [List.mem_filterMap] at hb
            obtain ⟨d, hd, hbd⟩ := hb
            by_cases habs : findChunk s.chunks (x + d.1, y + d.2) = none
            · rw [if_pos habs] at hbd
              cases hbd
              rw [show mentionCoords (Action.NewChunkAt (x + d.1) (y + d.2)) =
                [(x + d.1, y + d.2)] from rfl, List.mem_singleton] at hcb
              subst hcb
              rw [mem_liveNb]
              have hg0 : getAlive0 s.chunks (x, y) idx = true := by
                unfold getAlive0
                rw [hch]
                exact halive
              obtain ⟨e, he, hek, hlt, hal⟩ := getAlive0_true_elim s.chunks (x, y) idx hg0
              refine ⟨e, he, chunkHasLive_of_getD e.2.cells idx dummyCell hal hlt, d, hd, ?_⟩
              rw [hek]
            · rw [if_neg habs] at hbd
              cases hbd
          · intro b hb
            rw [List.mem_filterMap] at hb
            obtain ⟨d, hd, hbd⟩ := hb
            by_cases habs : findChunk s.chunks (x + d.1, y + d.2) = none
            · rw [if_pos habs] at hbd
              cases hbd
              show (if (findChunk s.chunks (x + d.1, y + d.2)).isSome
                then maxLen s.chunks + 2 else 0) = 0
              rw [habs]
              rfl
            · rw [if_neg habs] at hbd
              cases hbd
        · rw [if_neg halive]
          refine measC_cell s.chunks x y idx [] rest ?_ ?_
          · intro c hc
            exact absurd hc (Finset.not_mem_empty c)
          · intro b hb
            cases hb
    | CheckChunkAt x y =>
      rcases hch : findChunk s.chunks (x, y) with - | ch
      · have hex : execAction (.CheckChunkAt x y) { s with actions := rest } =
            { s with actions := .NewChunkAt x y :: rest } := by
          simp only [execAction, hch]
        rw [hex]
        exact measC_chunk_absent s.chunks x y rest hch
      · rw [execAction_checkChunk_chunks,
          execAction_checkChunk_actions { s with actions := rest } x y ch hch]
        exact measC_chunk_present s.chunks x y ch rest hch
    | NewChunkAt x y =>
      rcases hch : findChunk s.chunks (x, y) with - | ch
      · exact measC_na_absent s.chunks x y rest hch
      · exact measC_na_present s.chunks x y ch rest hch

/-- The drain loop reaches the empty queue from every state: some fuel
suffices. -/
theorem drainFuel_succeeds (s : Universe) : ∃ n s', drainFuel n s = some s' := by
  refine WellFounded.induction (InvImage.wf measure3 MLex_wf)
    (C := fun u => ∃ n s', drainFuel n u = some s') s ?_
  intro s ih
  by_cases h : s.actions = []
  · exact ⟨0, s, by unfold drainFuel; rw [if_pos h]⟩
  · obtain ⟨n, s', hn⟩ := ih (drainOnce s) (measure3_drainOnce s h)
    refine ⟨n + 1, s', ?_⟩
    unfold drainFuel
    rcases ha : s.actions with - | ⟨a, rest⟩
    · exact absurd ha h
    · show drainFuel n (execAction a { s with actions := rest }) = some s'
      have hdo : drainOnce s = execAction a { s with actions := rest } := by
        unfold drainOnce
        rw [ha]
      rw [← hdo]
      exact hn

theorem drainFuel_some_nil :
    ∀ (n : Nat) (s s' : Universe), drainFuel n s = some s' → s'.actions = [] := by
  intro n
  induction n with
  | zero =>
    intro s s' h
    unfold drainFuel at h
    split at h
    · cases h
      assumption
    · cases h
  | succ n ih =>
    intro s s' h
    unfold drainFuel at h
    cases ha : s.actions with
    | nil =>
      rw [ha] at h
      cases h
      exact ha
    | cons a rest =>
      rw [ha] at h
      exact ih _ _ h

/-- C6: from every state (any chunk map, any queue contents) the action
executor terminates — the drain loop empties the queue after finitely
many iterations, after which `execute_actions` performs the buffer swap
and returns, and consequently every `step()` call returns. -/
theorem C6_executor_terminates (s : Universe) :
    (∃ (n : Nat) (s' : Universe), drainFuel n s = some s' ∧ s'.actions = [] ∧
      execute_actions n s = some { s' with chunks := swapAll s'.chunks }) ∧
    (∃ (m : Nat) (t : Universe), step m s = some t) := by
  obtain ⟨n, s', hn⟩ := drainFuel_succeeds s
  obtain ⟨m, t', hm⟩ := drainFuel_succeeds (enqueueChunkChecks s)
  refine ⟨⟨n, s', hn, drainFuel_some_nil n s s' hn, ?_⟩,
    ⟨m, { t' with chunks := swapAll t'.chunks, generation := t'.generation + 1 }, ?_⟩⟩
  · unfold execute_actions
    rw [hn]
    rfl
  · unfold step execute_actions
    rw [hm]
    rfl

end Life
